import Mathlib

/-
Verification of the lovlig extraction + change-detection engine and its
crash-safe state store, as implemented in
src/lovdata_processing/load/archive_extractor.py,
src/lovdata_processing/state/manager.py,
src/lovdata_processing/domain/models.py and
src/lovdata_processing/config.py.

Modelling conventions:
- Python dicts are modelled as association lists with first-match lookup and
  in-place replacement on assignment (Python dict keys are unique, so the
  two semantics agree on every state the program can construct).
- File bytes are modelled as lists of characters.  SHA-256 is modelled as an
  injective digest: collisions are assumed absent, so the digest of a file is
  represented by its content packed into a string (the type matches the
  source's hexadecimal string).
- datetime values are modelled as opaque ISO-8601 strings.
- Filesystem paths are modelled as lists of components; pathlib's resolve()
  is modelled by component normalisation (no symlinks in the model).
- The hashing thread pool completes jobs in nondeterministic order, but the
  shared accumulators are updated under a lock and the final map and the
  multiset of bucket entries do not depend on completion order; the model
  processes each submitted job at its submission point.
-/

set_option autoImplicit false

namespace Lovlig

/-! ## Association-list model of Python dicts -/

/-- First-match lookup, the model of Python dict indexing / .get. -/
def dictGet {α : Type} (d : List (String × α)) (k : String) : Option α :=
  match d with
  | [] => none
  | (k', v) :: rest => if k' = k then some v else dictGet rest k

/-- Membership test, the model of the Python `in` operator on a dict. -/
def dictMem {α : Type} (d : List (String × α)) (k : String) : Bool :=
  (dictGet d k).isSome

/-- Assignment `d[k] = v`: replace the first binding of `k`, or append. -/
def dictSet {α : Type} (d : List (String × α)) (k : String) (v : α) :
    List (String × α) :=
  match d with
  | [] => [(k, v)]
  | (k', v') :: rest => if k' = k then (k, v) :: rest else (k', v') :: dictSet rest k v

/-- The keys of a dict, in insertion order. -/
def dictKeys {α : Type} (d : List (String × α)) : List String :=
  d.map (fun kv => kv.1)

/-- Number of bindings a dict holds for a key. -/
def countKey {α : Type} (d : List (String × α)) (k : String) : Nat :=
  (dictKeys d).count k

/-! ## Path model (pathlib resolve / relative_to)

`_safe_extract_member` computes `(extract_dir / member.name).resolve()` and
checks `target.relative_to(root)`.  Absolute paths are component lists from
the filesystem root; `resolve` normalises `.` and `..` components. -/

/-- Split the character data of a path string on slashes, dropping empty
components (pathlib collapses repeated slashes). -/
def splitComps : List Char → List Char → List String
  | [], acc => if acc.isEmpty then [] else [String.mk acc.reverse]
  | c :: rest, acc =>
    if c = '/' then
      (if acc.isEmpty then splitComps rest [] else String.mk acc.reverse :: splitComps rest [])
    else
      splitComps rest (c :: acc)

/-- The components of a member-name string. -/
def splitComponents (s : String) : List String :=
  splitComps s.data []

/-- Whether a member name denotes an absolute path (leading slash), in which
case pathlib's `/` operator discards the left operand. -/
def isAbsoluteName (s : String) : Bool :=
  match s.data with
  | '/' :: _ => true
  | _ => false

/-- pathlib resolve(): fold the components over an absolute base, popping on
`..` (staying at the filesystem root when already there) and skipping `.`. -/
def resolveComponents (base : List String) (comps : List String) : List String :=
  comps.foldl
    (fun acc c => if c = "." then acc else if c = ".." then acc.dropLast else acc ++ [c])
    base

/-- The canonicalized absolute destination of an archive member name under
the canonical destination root: `(extract_dir / member.name).resolve()`. -/
def destinationPath (root : List String) (name : String) : List String :=
  if isAbsoluteName name then resolveComponents [] (splitComponents name)
  else resolveComponents root (splitComponents name)

/-- `underRoot root target` holds when `root` is a path prefix of `target`:
exactly the condition under which `target.relative_to(root)` succeeds. -/
def underRoot : List String → List String → Bool
  | [], _ => true
  | _ :: _, [] => false
  | a :: as, b :: bs => (a = b) && underRoot as bs

/-- Spec-side notion, for comparison with the code: the spec demands the
destination be a STRICT descendant of the destination root. -/
def isStrictDescendant (root target : List String) : Bool :=
  underRoot root target && decide (target ≠ root)

/-- Failure raised by the safe-extraction guard. -/
inductive ExtractError where
  | pathTraversal (name : String)
deriving DecidableEq, Repr

/-- Model of `_safe_extract_member`: canonicalize the destination, refuse the
member when the destination escapes the root (pathlib `relative_to` raising
ValueError), otherwise return the path at which the bytes are written. -/
def _safe_extract_member (root : List String) (name : String) :
    Except ExtractError (List String) :=
  let target := destinationPath root name
  if underRoot root target then Except.ok target
  else Except.error (ExtractError.pathTraversal name)

/-! ## Domain models (domain/models.py) -/

/-- Status of a file in the current dataset state. -/
inductive FileStatus where
  | added
  | modified
  | unchanged
  | removed
deriving DecidableEq, Repr

/-- Individual file metadata within an archive. -/
structure FileMetadata where
  path : String
  size : Int
  sha256 : String
  last_changed : Option String
  status : FileStatus
deriving DecidableEq, Repr

/-- File bytes, as characters. -/
abbrev Bytes := List Char

/-- A tar archive member: its name, whether it is a regular file, and its
payload.  The tar header size of a file member equals its payload length. -/
structure TarMember where
  name : String
  isFile : Bool
  content : Bytes
deriving DecidableEq, Repr

/-- Changes between current and previous archive state. -/
structure ArchiveChangeSet where
  new_files : List String
  modified_files : List String
  removed_files : List String
  unchanged_files : List String
deriving DecidableEq, Repr

/-- True if any files were added, modified, or removed. -/
def ArchiveChangeSet.has_changes (cs : ArchiveChangeSet) : Bool :=
  !cs.new_files.isEmpty || !cs.modified_files.isEmpty || !cs.removed_files.isEmpty

/-! ## Hashing and classification (archive_extractor.py) -/

/-- Model of `compute_sha256`: an injective content digest (SHA-256 is
assumed collision-free, so the digest is the content packed into a string). -/
def compute_sha256 (content : Bytes) : String :=
  String.mk content

/-- Model of `_process_extracted_file`: hash the extracted file and update
the shared current-file map and changeset (the lock-guarded assignment). -/
def _process_extracted_file (member_name : String) (content : Bytes)
    (member_size : Int) (dataset_version : String) (is_new : Bool)
    (previous_meta : Option FileMetadata)
    (current_files : List (String × FileMetadata)) (changeset : ArchiveChangeSet) :
    List (String × FileMetadata) × ArchiveChangeSet :=
  let file_hash := compute_sha256 content
  let is_modified :=
    match previous_meta with
    | some pm => !is_new && (pm.sha256 != file_hash)
    | none => false
  let lcst : Option String × FileStatus :=
    if is_new then (some dataset_version, FileStatus.added)
    else if is_modified then (some dataset_version, FileStatus.modified)
    else
      (match previous_meta with
       | some pm =>
         match pm.last_changed with
         | some t => some t
         | none => some dataset_version
       | none => some dataset_version,
       FileStatus.unchanged)
  let file_metadata : FileMetadata :=
    { path := member_name, size := member_size, sha256 := file_hash
      last_changed := lcst.1, status := lcst.2 }
  let current' := dictSet current_files member_name file_metadata
  let cs' :=
    if is_new then { changeset with new_files := changeset.new_files ++ [member_name] }
    else if is_modified then
      { changeset with modified_files := changeset.modified_files ++ [member_name] }
    else { changeset with unchanged_files := changeset.unchanged_files ++ [member_name] }
  (current', cs')

/-- The member loop of `extract_tar_bz2_incremental`: skip non-file members,
safe-extract each file member (a traversal failure aborts the whole pass
before any further byte is written), record the write, and run the hashing
job.  Returns the files written on disk together with the outcome. -/
def processMembers (root : List String) (dataset_version : String)
    (previous_files : List (String × FileMetadata)) :
    List TarMember → List (List String × Bytes) →
    List (String × FileMetadata) → ArchiveChangeSet →
    List (List String × Bytes) ×
      Except ExtractError (List (String × FileMetadata) × ArchiveChangeSet)
  | [], written, current, cs => (written, Except.ok (current, cs))
  | m :: rest, written, current, cs =>
    if m.isFile then
      match _safe_extract_member root m.name with
      | Except.error e => (written, Except.error e)
      | Except.ok target =>
        let is_new := !(dictMem previous_files m.name)
        let previous_meta := dictGet previous_files m.name
        let step := _process_extracted_file m.name m.content (Int.ofNat m.content.length)
          dataset_version is_new previous_meta current cs
        processMembers root dataset_version previous_files rest
          (written ++ [(target, m.content)]) step.1 step.2
    else
      processMembers root dataset_version previous_files rest written current cs

/-- The record stored for a file that disappeared from the archive: size and
digest carried over from the previous record, freshly stamped Removed. -/
def removedMeta (dataset_version : String) (pm : FileMetadata) : FileMetadata :=
  { path := pm.path, size := pm.size, sha256 := pm.sha256
    last_changed := some dataset_version, status := FileStatus.removed }

/-- The removed-file phase of `extract_tar_bz2_incremental`: previous paths
absent from the current map become the removed bucket (a Python set; the
model fixes previous-map order) and are kept in state as Removed records. -/
def markRemoved (dataset_version : String)
    (previous_files current : List (String × FileMetadata))
    (cs : ArchiveChangeSet) :
    List (String × FileMetadata) × ArchiveChangeSet :=
  let removed_paths :=
    ((dictKeys previous_files).filter (fun p => !(dictMem current p))).dedup
  let cs' := { cs with removed_files := removed_paths }
  let current' := removed_paths.foldl
    (fun acc p =>
      match dictGet previous_files p with
      | some pm => dictSet acc p (removedMeta dataset_version pm)
      | none => acc)
    current
  (current', cs')

/-- Model of `extract_tar_bz2_incremental`: run the member loop from empty
accumulators, then mark removed files.  The first component lists every file
written on disk (resolved path and bytes); the second is the return value or
the raised error. -/
def extract_tar_bz2_incremental (root : List String) (members : List TarMember)
    (dataset_version : String) (previous_files : List (String × FileMetadata)) :
    List (List String × Bytes) ×
      Except ExtractError (List (String × FileMetadata) × ArchiveChangeSet) :=
  match processMembers root dataset_version previous_files members [] []
      ⟨[], [], [], []⟩ with
  | (written, Except.error e) => (written, Except.error e)
  | (written, Except.ok (current, cs)) =>
    let fin := markRemoved dataset_version previous_files current cs
    (written, Except.ok (fin.1, fin.2))

/-! ### Derived descriptions of the loop, used to state the theorems -/

/-- The record `_process_extracted_file` builds for a member, as a function
of the member and the call-site arguments of the loop (the connection is
proved in processStep_eq below). -/
def classifyMeta (previous_files : List (String × FileMetadata))
    (dataset_version : String) (m : TarMember) : FileMetadata :=
  let file_hash := compute_sha256 m.content
  match dictGet previous_files m.name with
  | none =>
    { path := m.name, size := Int.ofNat m.content.length, sha256 := file_hash
      last_changed := some dataset_version, status := FileStatus.added }
  | some pm =>
    if pm.sha256 != file_hash then
      { path := m.name, size := Int.ofNat m.content.length, sha256 := file_hash
        last_changed := some dataset_version, status := FileStatus.modified }
    else
      { path := m.name, size := Int.ofNat m.content.length, sha256 := file_hash
        last_changed :=
          match pm.last_changed with
          | some t => some t
          | none => some dataset_version
        status := FileStatus.unchanged }

/-- The last file member of the archive carrying a given name: the one whose
hash job wins the final map assignment for that path. -/
def lastFileNamed (p : String) : List TarMember → Option TarMember
  | [] => none
  | m :: rest =>
    match lastFileNamed p rest with
    | some x => some x
    | none => if m.isFile && m.name = p then some m else none

/-- A member passes the safe-extraction guard (non-file members trivially). -/
def memberOk (root : List String) (m : TarMember) : Bool :=
  !m.isFile || underRoot root (destinationPath root m.name)

/-- The on-disk writes the loop produces, stopping at the first guard
failure. -/
def goodWrites (root : List String) : List TarMember → List (List String × Bytes)
  | [] => []
  | m :: rest =>
    if m.isFile then
      (if underRoot root (destinationPath root m.name) then
        (destinationPath root m.name, m.content) :: goodWrites root rest
      else [])
    else goodWrites root rest

/-- The loop classifies a member Added iff it is a file with no previous
record. -/
def isNewB (previous_files : List (String × FileMetadata)) (m : TarMember) : Bool :=
  m.isFile && !(dictMem previous_files m.name)

/-- The loop classifies a member Modified iff it is a file whose previous
record carries a different digest. -/
def isModB (previous_files : List (String × FileMetadata)) (m : TarMember) : Bool :=
  m.isFile &&
    (match dictGet previous_files m.name with
     | some pm => pm.sha256 != compute_sha256 m.content
     | none => false)

/-- The loop classifies a member Unchanged iff it is a file that is neither
new nor modified. -/
def isUnchB (previous_files : List (String × FileMetadata)) (m : TarMember) : Bool :=
  m.isFile && !(isNewB previous_files m) && !(isModB previous_files m)

/-- Names of the file members of an archive, in order. -/
def fileNamesOf (ms : List TarMember) : List String :=
  (ms.filter (fun m => m.isFile)).map (fun m => m.name)

/-! ## Worker-pool sizing (config.py / archive_extractor.py) -/

/-- Model of config.py `_default_hash_workers`: clamp the cpu count (treated
as 1 when the OS reports none) into the range 1..32. -/
def _default_hash_workers (cpuCount : Option Nat) : Int :=
  max 1 (min 32 (Int.ofNat (cpuCount.getD 1)))

/-- Model of `_resolve_worker_count`: a truthy positive override wins,
otherwise fall back to the raw cpu count floored at 1 (Python truthiness of
`max_hash_workers and max_hash_workers > 0` collapses to the > 0 test). -/
def _resolve_worker_count (max_hash_workers : Option Int) (cpuCount : Option Nat) : Int :=
  match max_hash_workers with
  | some v => if v > 0 then v else max 1 (Int.ofNat (cpuCount.getD 1))
  | none => max 1 (Int.ofNat (cpuCount.getD 1))

/-! ## Persisted state document (state/manager.py, domain/models.py) -/

/-- Dataset metadata: source filename, upstream version marker, file map. -/
structure RawDatasetMetadata where
  filename : String
  last_modified : String
  files : List (String × FileMetadata)
deriving DecidableEq, Repr

/-- Complete pipeline state, the sole persisted aggregate. -/
structure PipelineState where
  raw_datasets : List (String × RawDatasetMetadata)
deriving DecidableEq, Repr

/-- JSON documents, the output of orjson.loads. -/
inductive Json where
  | null
  | bool (b : Bool)
  | num (n : Int)
  | str (s : String)
  | arr (items : List Json)
  | obj (fields : List (String × Json))

/-- Whether a JSON value is an object (a Python dict). -/
def Json.isObj : Json → Bool
  | Json.obj _ => true
  | _ => false

/-- Model of `PipelineStateManager._sanitize_raw_state`: a non-dict document
collapses to an empty one; a missing or non-dict raw_datasets entry is
replaced by an empty dict; everything else is kept as-is. -/
def _sanitize_raw_state (payload : Json) : Json :=
  match payload with
  | Json.obj fields =>
    let raw_datasets :=
      match dictGet fields "raw_datasets" with
      | some (Json.obj ds) => Json.obj ds
      | _ => Json.obj []
    Json.obj (dictSet fields "raw_datasets" raw_datasets)
  | _ => Json.obj [("raw_datasets", Json.obj [])]

/-- pydantic validation of a string field. -/
def asString : Json → Except String String
  | Json.str s => Except.ok s
  | _ => Except.error "expected string"

/-- pydantic validation of an integer field. -/
def asInt : Json → Except String Int
  | Json.num n => Except.ok n
  | _ => Except.error "expected integer"

/-- pydantic validation of the FileStatus enum. -/
def validateFileStatus : Json → Except String FileStatus
  | Json.str "added" => Except.ok FileStatus.added
  | Json.str "modified" => Except.ok FileStatus.modified
  | Json.str "unchanged" => Except.ok FileStatus.unchanged
  | Json.str "removed" => Except.ok FileStatus.removed
  | _ => Except.error "invalid status"

/-- pydantic validation of FileMetadata: required path/size/sha256, optional
last_changed (null or absent become None) and status (default unchanged);
unrecognized fields are ignored (pydantic default extra handling). -/
def validateFileMetadata (j : Json) : Except String FileMetadata :=
  match j with
  | Json.obj fields => do
    let path ←
      match dictGet fields "path" with
      | some v => asString v
      | none => Except.error "path required"
    let size ←
      match dictGet fields "size" with
      | some v => asInt v
      | none => Except.error "size required"
    let sha ←
      match dictGet fields "sha256" with
      | some v => asString v
      | none => Except.error "sha256 required"
    let lc ←
      match dictGet fields "last_changed" with
      | some Json.null => Except.ok Option.none
      | none => Except.ok Option.none
      | some v => (asString v).map Option.some
    let st ←
      match dictGet fields "status" with
      | none => Except.ok FileStatus.unchanged
      | some v => validateFileStatus v
    Except.ok { path := path, size := size, sha256 := sha, last_changed := lc, status := st }
  | _ => Except.error "expected object"

/-- Validate every value of a JSON object in order, keeping the keys. -/
def validateEntries {α : Type} (f : Json → Except String α) :
    List (String × Json) → Except String (List (String × α))
  | [] => Except.ok []
  | (k, v) :: rest => do
    let a ← f v
    let r ← validateEntries f rest
    Except.ok ((k, a) :: r)

/-- pydantic validation of RawDatasetMetadata: required filename and
last_modified, files defaulting to an empty map. -/
def validateRawDataset (j : Json) : Except String RawDatasetMetadata :=
  match j with
  | Json.obj fields => do
    let fn ←
      match dictGet fields "filename" with
      | some v => asString v
      | none => Except.error "filename required"
    let lm ←
      match dictGet fields "last_modified" with
      | some v => asString v
      | none => Except.error "last_modified required"
    let files ←
      match dictGet fields "files" with
      | none => Except.ok []
      | some (Json.obj fs) => validateEntries validateFileMetadata fs
      | some _ => Except.error "files must be an object"
    Except.ok { filename := fn, last_modified := lm, files := files }
  | _ => Except.error "expected object"

/-- pydantic validation of the whole PipelineState document. -/
def validatePipelineState (j : Json) : Except String PipelineState :=
  match j with
  | Json.obj fields => do
    let ds ←
      match dictGet fields "raw_datasets" with
      | none => Except.ok []
      | some (Json.obj ds) => validateEntries validateRawDataset ds
      | some _ => Except.error "raw_datasets must be an object"
    Except.ok { raw_datasets := ds }
  | _ => Except.error "expected object"

/-- The enum value serialized for a status. -/
def statusToStr : FileStatus → String
  | FileStatus.added => "added"
  | FileStatus.modified => "modified"
  | FileStatus.unchanged => "unchanged"
  | FileStatus.removed => "removed"

/-- The serialized fields of a FileMetadata (model_dump mode json). -/
def fileFields (m : FileMetadata) : List (String × Json) :=
  [("path", Json.str m.path), ("size", Json.num m.size),
   ("sha256", Json.str m.sha256),
   ("last_changed",
    match m.last_changed with
    | some t => Json.str t
    | none => Json.null),
   ("status", Json.str (statusToStr m.status))]

/-- Serialization of a FileMetadata. -/
def dumpFileMetadata (m : FileMetadata) : Json :=
  Json.obj (fileFields m)

/-- Serialization of a RawDatasetMetadata. -/
def dumpRawDataset (d : RawDatasetMetadata) : Json :=
  Json.obj
    [("filename", Json.str d.filename), ("last_modified", Json.str d.last_modified),
     ("files", Json.obj (d.files.map (fun kv => (kv.1, dumpFileMetadata kv.2))))]

/-- Serialization of the whole PipelineState (model_dump then orjson.dumps;
the byte layer is a bijection on documents and is folded away). -/
def dumpPipelineState (s : PipelineState) : Json :=
  Json.obj
    [("raw_datasets", Json.obj (s.raw_datasets.map (fun kv => (kv.1, dumpRawDataset kv.2))))]

/-! ## State store load and exit (state/manager.py) -/

/-- What reading the backing file yields: no file, an unreadable file, bytes
that are not JSON, or a parsed document. -/
inductive ReadOutcome where
  | missing
  | ioFailure
  | badJson
  | content (j : Json)

/-- Failures of the load path. -/
inductive LoadError where
  | decodeError
  | osError
  | validationError (msg : String)
deriving Repr

/-- Model of `PipelineStateManager.__enter__`: a missing file keeps the
initial empty state; OSError and JSONDecodeError propagate; a parsed
document is sanitized then validated. -/
def loadState (r : ReadOutcome) : Except LoadError PipelineState :=
  match r with
  | ReadOutcome.missing => Except.ok { raw_datasets := [] }
  | ReadOutcome.ioFailure => Except.error LoadError.osError
  | ReadOutcome.badJson => Except.error LoadError.decodeError
  | ReadOutcome.content j =>
    match validatePipelineState (_sanitize_raw_state j) with
    | Except.ok s => Except.ok s
    | Except.error m => Except.error (LoadError.validationError m)

/-- Whether the atomic persist succeeds or an OS failure interrupts it. -/
inductive WriteOutcome where
  | success
  | osFailure
deriving DecidableEq, Repr

/-- Model of `PipelineStateManager.__exit__`: with a pending exception the
state is not persisted (and __exit__ returns False, so the exception
propagates); on clean exit the serialized state atomically replaces the
target, and an OSError during the write is re-raised.  Returns the final
target-file content and whether an OSError was raised. -/
def managerExit (excType : Option String) (data : PipelineState)
    (target : Option Json) (w : WriteOutcome) : Option Json × Bool :=
  match excType with
  | some _ => (target, false)
  | none =>
    match w with
    | WriteOutcome.success => (some (dumpPipelineState data), false)
    | WriteOutcome.osFailure => (target, true)

/-- The successive contents an observer of the target path can see during
__exit__.  atomic_write (external, modelled per its contract) writes a
temporary file in the same directory and renames it over the target, so the
target itself only ever changes in one atomic step; on failure the
temporary file is discarded and the target is never touched. -/
def managerExitTrace (excType : Option String) (data : PipelineState)
    (target : Option Json) (w : WriteOutcome) : List (Option Json) :=
  match excType with
  | some _ => [target]
  | none =>
    match w with
    | WriteOutcome.success => [target, some (dumpPipelineState data)]
    | WriteOutcome.osFailure => [target]

/-! ## State accessors (state/manager.py) -/

/-- Model of `PipelineStateManager.update_file_metadata`: replace the files
map of a tracked dataset; for an untracked key, warn and change nothing. -/
def update_file_metadata (st : PipelineState) (dataset_key : String)
    (files : List (String × FileMetadata)) : PipelineState :=
  match dictGet st.raw_datasets dataset_key with
  | some d => { raw_datasets := dictSet st.raw_datasets dataset_key { d with files := files } }
  | none => st

/-- Model of `PipelineStateManager.update_dataset_metadata`: store the new
metadata, but for a tracked key restore the existing files map over it. -/
def update_dataset_metadata (st : PipelineState) (dataset_key : String)
    (metadata : RawDatasetMetadata) : PipelineState :=
  match dictGet st.raw_datasets dataset_key with
  | some existing =>
    { raw_datasets :=
        dictSet st.raw_datasets dataset_key { metadata with files := existing.files } }
  | none => { raw_datasets := dictSet st.raw_datasets dataset_key metadata }

/-! ## Dictionary lemmas -/

theorem dictGet_dictSet_eq {α : Type} (d : List (String × α)) (k : String) (v : α) :
    dictGet (dictSet d k v) k = some v := by
  induction d with
  | nil => simp [dictGet, dictSet]
  | cons kv rest ih =>
    by_cases h : kv.1 = k
    · simp [dictGet, dictSet, h]
    · simp [dictGet, dictSet, h, ih]

theorem dictGet_dictSet_ne {α : Type} (d : List (String × α)) (k k' : String) (v : α)
    (h : k' ≠ k) : dictGet (dictSet d k v) k' = dictGet d k' := by
  induction d with
  | nil =>
    simp only [dictSet, dictGet]
    rw [if_neg (fun hc => h hc.symm)]
  | cons kv rest ih =>
    rcases kv with ⟨k1, v1⟩
    by_cases hk : k1 = k
    · subst hk
      simp only [dictSet, if_pos rfl, dictGet]
      rw [if_neg (fun hc => h hc.symm), if_neg (fun hc => h hc.symm)]
    · simp only [dictSet, if_neg hk, dictGet]
      by_cases hk' : k1 = k'
      · rw [if_pos hk', if_pos hk']
      · rw [if_neg hk', if_neg hk', ih]

theorem dictMem_iff_mem_keys {α : Type} (d : List (String × α)) (k : String) :
    dictMem d k = true ↔ k ∈ dictKeys d := by
  induction d with
  | nil => simp [dictMem, dictGet, dictKeys]
  | cons kv rest ih =>
    rcases kv with ⟨k1, v1⟩
    by_cases h : k1 = k
    · simp [dictMem, dictGet, dictKeys, h]
    · simpa [dictMem, dictGet, dictKeys, h, Ne.symm h] using ih

theorem dictMem_false_iff {α : Type} (d : List (String × α)) (k : String) :
    dictMem d k = false ↔ dictGet d k = none := by
  unfold dictMem
  cases dictGet d k <;> simp

theorem dictKeys_dictSet_mem {α : Type} (d : List (String × α)) (k : String) (v : α)
    (h : dictMem d k = true) : dictKeys (dictSet d k v) = dictKeys d := by
  induction d with
  | nil => simp [dictMem, dictGet] at h
  | cons kv rest ih =>
    rcases kv with ⟨k1, v1⟩
    by_cases hk : k1 = k
    · subst hk
      simp [dictSet, dictKeys]
    · simp only [dictMem, dictGet, if_neg hk] at h
      simp only [dictSet, if_neg hk, dictKeys, List.map_cons, List.cons.injEq, true_and]
      exact ih h

theorem dictKeys_dictSet_notMem {α : Type} (d : List (String × α)) (k : String) (v : α)
    (h : dictMem d k = false) : dictKeys (dictSet d k v) = dictKeys d ++ [k] := by
  induction d with
  | nil => simp [dictSet, dictKeys]
  | cons kv rest ih =>
    rcases kv with ⟨k1, v1⟩
    by_cases hk : k1 = k
    · simp [dictMem, dictGet, hk] at h
    · simp only [dictMem, dictGet, if_neg hk] at h
      simp only [dictSet, if_neg hk, dictKeys, List.map_cons, List.cons_append,
        List.cons.injEq, true_and]
      exact ih h

theorem nodupKeys_dictSet {α : Type} (d : List (String × α)) (k : String) (v : α)
    (h : (dictKeys d).Nodup) : (dictKeys (dictSet d k v)).Nodup := by
  cases hm : dictMem d k
  · have hk : k ∉ dictKeys d := by
      intro hc
      rw [(dictMem_iff_mem_keys d k).mpr hc] at hm
      cases hm
    rw [dictKeys_dictSet_notMem d k v hm]
    simp [List.nodup_append, h, hk]
  · rw [dictKeys_dictSet_mem d k v hm]
    exact h

theorem dictGet_append_left {α : Type} (d e : List (String × α)) (k : String) (v : α)
    (h : dictGet d k = some v) : dictGet (d ++ e) k = some v := by
  induction d with
  | nil => simp [dictGet] at h
  | cons kv rest ih =>
    by_cases hk : kv.1 = k
    · simp [dictGet, hk] at h ⊢
      exact h
    · simp [dictGet, hk] at h ⊢
      exact ih h

/-! ## C5: default worker-pool size -/

/-- C5: when no worker-count configuration is supplied, the Settings default
factory provides the worker count, the extractor accepts it unchanged, and
the resolved pool size is clamp(cpuCount, 1, 32) = min(max(cpuCount,1),32)
for every reported cpu count (a missing cpu count is treated as 1). -/
theorem c5_default_worker_clamp :
    ∀ cpu : Option Nat,
      _resolve_worker_count (some (_default_hash_workers cpu)) cpu =
        min (max (Int.ofNat (cpu.getD 1)) 1) 32 := by
  intro cpu
  have hred : _resolve_worker_count (some (_default_hash_workers cpu)) cpu =
      if _default_hash_workers cpu > 0 then _default_hash_workers cpu
      else max 1 (Int.ofNat (cpu.getD 1)) := rfl
  have hpos : _default_hash_workers cpu > 0 := by
    unfold _default_hash_workers
    omega
  rw [hred, if_pos hpos]
  unfold _default_hash_workers
  omega

/-! ## C7: persist on clean exit only, atomically -/

/-- C7: the state is persisted iff the scoped use exits without an
exception: on an exception the backing file is untouched and no OS error is
raised by __exit__ (the exception itself propagates); on clean exit with a
successful write the serialized state replaces the target; an OS failure
during persistence is raised and leaves the target unchanged; the target is
only ever observed as its previous complete content or the new complete
content. -/
theorem c7_exit_persistence :
    ∀ (exc : Option String) (data : PipelineState) (target : Option Json)
      (w : WriteOutcome),
      (∀ e, exc = some e → managerExit exc data target w = (target, false)) ∧
      (exc = none → w = WriteOutcome.success →
        managerExit exc data target w = (some (dumpPipelineState data), false)) ∧
      (exc = none → w = WriteOutcome.osFailure →
        managerExit exc data target w = (target, true)) ∧
      (∀ v, v ∈ managerExitTrace exc data target w →
        v = target ∨ v = some (dumpPipelineState data)) := by
  intro exc data target w
  refine ⟨?_, ?_, ?_, ?_⟩
  · intro e he
    subst he
    rfl
  · intro he hw
    subst he
    subst hw
    rfl
  · intro he hw
    subst he
    subst hw
    rfl
  · intro v hv
    cases exc with
    | some e => simp [managerExitTrace] at hv; simp [hv]
    | none =>
      cases w with
      | success =>
        simp [managerExitTrace] at hv
        rcases hv with h | h <;> simp [h]
      | osFailure => simp [managerExitTrace] at hv; simp [hv]

/-- Witness for C7 at a concrete state: clean exit with a successful write
stores the serialized state. -/
theorem c7_exit_persistence_witness :
    managerExit none { raw_datasets := [] } none WriteOutcome.success =
      (some (dumpPipelineState { raw_datasets := [] }), false) :=
  (c7_exit_persistence none { raw_datasets := [] } none WriteOutcome.success).2.1
    rfl rfl

/-! ## C8: frame properties of the write accessors -/

/-- C8: updating file metadata for an untracked dataset key leaves the whole
state unchanged (a warned no-op that never auto-creates the entry), and
upserting dataset metadata for a tracked key overwrites only the filename
and version while the existing files map is preserved untouched and every
other dataset entry is unaffected. -/
theorem c8_accessor_frames :
    ∀ (st : PipelineState) (key : String) (files : List (String × FileMetadata))
      (md : RawDatasetMetadata),
      (dictMem st.raw_datasets key = false →
        update_file_metadata st key files = st) ∧
      (∀ ex, dictGet st.raw_datasets key = some ex →
        dictGet (update_dataset_metadata st key md).raw_datasets key =
          some { filename := md.filename, last_modified := md.last_modified
                 files := ex.files } ∧
        (∀ k2, k2 ≠ key →
          dictGet (update_dataset_metadata st key md).raw_datasets k2 =
            dictGet st.raw_datasets k2)) := by
  intro st key files md
  constructor
  · intro hmem
    unfold update_file_metadata
    rw [(dictMem_false_iff _ _).mp hmem]
  · intro ex hget
    unfold update_dataset_metadata
    rw [hget]
    constructor
    · exact dictGet_dictSet_eq _ _ _
    · intro k2 hne
      exact dictGet_dictSet_ne _ _ _ _ hne

/-- Witness for C8 at a concrete state: the untracked-key no-op and the
files-preserving upsert, evaluated on explicit data. -/
theorem c8_accessor_frames_witness :
    update_file_metadata { raw_datasets := [] } "k" [] = { raw_datasets := [] } ∧
    dictGet (update_dataset_metadata
        { raw_datasets := [("k", { filename := "f", last_modified := "t",
                                   files := [("p", { path := "p", size := 1, sha256 := "x",
                                                     last_changed := none,
                                                     status := FileStatus.unchanged })] })] }
        "k" { filename := "g", last_modified := "u", files := [] }).raw_datasets "k" =
      some { filename := "g", last_modified := "u",
             files := [("p", { path := "p", size := 1, sha256 := "x",
                               last_changed := none,
                               status := FileStatus.unchanged })] } := by
  constructor
  · exact (c8_accessor_frames { raw_datasets := [] } "k" []
      { filename := "g", last_modified := "u", files := [] }).1 rfl
  · exact ((c8_accessor_frames
      { raw_datasets := [("k", { filename := "f", last_modified := "t",
                                 files := [("p", { path := "p", size := 1, sha256 := "x",
                                                   last_changed := none,
                                                   status := FileStatus.unchanged })] })] }
      "k" [] { filename := "g", last_modified := "u", files := [] }).2
      { filename := "f", last_modified := "t",
        files := [("p", { path := "p", size := 1, sha256 := "x",
                          last_changed := none,
                          status := FileStatus.unchanged })] }
      (by rfl)).1

/-! ## Round-trip lemmas for the persisted document -/

theorem validateFileStatus_roundtrip (st : FileStatus) :
    validateFileStatus (Json.str (statusToStr st)) = Except.ok st := by
  cases st <;> rfl

theorem validateFileMetadata_roundtrip (m : FileMetadata) :
    validateFileMetadata (dumpFileMetadata m) = Except.ok m := by
  rcases m with ⟨path, size, sha, lc, st⟩
  cases lc <;> cases st <;> rfl

theorem validateEntries_roundtrip {α : Type} (f : Json → Except String α) (g : α → Json)
    (h : ∀ a, f (g a) = Except.ok a) (l : List (String × α)) :
    validateEntries f (l.map (fun kv => (kv.1, g kv.2))) = Except.ok l := by
  induction l with
  | nil => rfl
  | cons kv rest ih =>
    simp only [List.map_cons, validateEntries, h, ih]
    rfl

theorem validateRawDataset_roundtrip (d : RawDatasetMetadata) :
    validateRawDataset (dumpRawDataset d) = Except.ok d := by
  rcases d with ⟨fn, lm, files⟩
  simp [dumpRawDataset, validateRawDataset, dictGet, asString, Except.bind,
    validateEntries_roundtrip validateFileMetadata dumpFileMetadata
      validateFileMetadata_roundtrip]
  rfl

theorem validatePipelineState_roundtrip (s : PipelineState) :
    validatePipelineState (dumpPipelineState s) = Except.ok s := by
  rcases s with ⟨ds⟩
  simp [dumpPipelineState, validatePipelineState, dictGet, Except.bind,
    validateEntries_roundtrip validateRawDataset dumpRawDataset
      validateRawDataset_roundtrip]
  rfl

theorem sanitize_dump (s : PipelineState) :
    _sanitize_raw_state (dumpPipelineState s) = dumpPipelineState s := rfl

/-! ## C9: persistence round-trip and legacy-field tolerance -/

/-- C9: persisting a PipelineState and reloading it with no interleaving
mutation (serialize, sanitize, validate) yields a field-for-field equal
value; a file entry additionally carrying an unknown/legacy field is
accepted on load without error, and the next persist omits it (the
serialized file fields are exactly the five recognized keys). -/
theorem c9_roundtrip_and_legacy :
    (∀ s : PipelineState,
      validatePipelineState (_sanitize_raw_state (dumpPipelineState s)) = Except.ok s) ∧
    (∀ (m : FileMetadata) (k : String) (v : Json),
      k ∉ ["path", "size", "sha256", "last_changed", "status"] →
      validateFileMetadata (Json.obj (fileFields m ++ [(k, v)])) = Except.ok m ∧
      k ∉ (fileFields m).map (fun kv => kv.1)) := by
  constructor
  · intro s
    rw [sanitize_dump, validatePipelineState_roundtrip]
  · intro m k v hk
    constructor
    · rcases m with ⟨p, sz, sh, lc, st⟩
      cases lc <;> cases st <;> rfl
    · have hkeys : (fileFields m).map (fun kv => kv.1) =
          ["path", "size", "sha256", "last_changed", "status"] := rfl
      rw [hkeys]
      exact hk

/-- Witness for C9: a concrete file entry carrying a retired md5 field loads
into the plain record, and a concrete one-dataset state round-trips. -/
theorem c9_roundtrip_and_legacy_witness :
    validateFileMetadata (Json.obj (fileFields
        { path := "a.xml", size := 3, sha256 := "abc", last_changed := some "2024",
          status := FileStatus.added } ++ [("md5", Json.str "aa")])) =
      Except.ok { path := "a.xml", size := 3, sha256 := "abc",
                  last_changed := some "2024", status := FileStatus.added } ∧
    validatePipelineState (_sanitize_raw_state (dumpPipelineState
        { raw_datasets := [("k", { filename := "f", last_modified := "t", files := [] })] })) =
      Except.ok { raw_datasets := [("k", { filename := "f", last_modified := "t",
                                           files := [] })] } :=
  ⟨(c9_roundtrip_and_legacy.2
      { path := "a.xml", size := 3, sha256 := "abc", last_changed := some "2024",
        status := FileStatus.added } "md5" (Json.str "aa") (by decide)).1,
   c9_roundtrip_and_legacy.1
      { raw_datasets := [("k", { filename := "f", last_modified := "t", files := [] })] }⟩

/-! ## C6: load fallbacks and fatal load errors -/

/-- C6: loading with no backing file yields the empty PipelineState without
error; a parsed document whose top level is not a dict, or whose
raw_datasets entry is absent or not a dict, is replaced by an
empty-but-valid PipelineState instead of failing; undecodable bytes and
read failures propagate as errors. -/
theorem c6_load_fallbacks :
    (loadState ReadOutcome.missing = Except.ok { raw_datasets := [] }) ∧
    (∀ j : Json, j.isObj = false →
      loadState (ReadOutcome.content j) = Except.ok { raw_datasets := [] }) ∧
    (∀ fields : List (String × Json),
      (∀ rv, dictGet fields "raw_datasets" = some rv → rv.isObj = false) →
      loadState (ReadOutcome.content (Json.obj fields)) =
        Except.ok { raw_datasets := [] }) ∧
    (loadState ReadOutcome.badJson = Except.error LoadError.decodeError) ∧
    (loadState ReadOutcome.ioFailure = Except.error LoadError.osError) := by
  refine ⟨rfl, ?_, ?_, rfl, rfl⟩
  · intro j hj
    cases j with
    | obj fields => simp [Json.isObj] at hj
    | null => rfl
    | bool b => rfl
    | num n => rfl
    | str s => rfl
    | arr items => rfl
  · intro fields hrv
    simp only [loadState, _sanitize_raw_state]
    have hsan : (match dictGet fields "raw_datasets" with
        | some (Json.obj ds) => Json.obj ds
        | _ => Json.obj []) = Json.obj [] := by
      cases hg : dictGet fields "raw_datasets" with
      | none => rfl
      | some rv =>
        have := hrv rv hg
        cases rv <;> simp [Json.isObj] at this ⊢
    rw [hsan]
    have hget : dictGet (dictSet fields "raw_datasets" (Json.obj [])) "raw_datasets" =
        some (Json.obj []) := dictGet_dictSet_eq fields "raw_datasets" (Json.obj [])
    simp only [validatePipelineState, hget]
    rfl

/-- Witness for C6: a concrete non-dict document and a concrete document
with a corrupt raw_datasets entry both load as the empty state. -/
theorem c6_load_fallbacks_witness :
    loadState (ReadOutcome.content (Json.num 0)) = Except.ok { raw_datasets := [] } ∧
    loadState (ReadOutcome.content (Json.obj [("raw_datasets", Json.str "legacy")])) =
      Except.ok { raw_datasets := [] } :=
  ⟨c6_load_fallbacks.2.1 (Json.num 0) rfl,
   c6_load_fallbacks.2.2.1 [("raw_datasets", Json.str "legacy")]
     (by
       intro rv h
       simp [dictGet] at h
       rw [← h]
       rfl)⟩

/-! ## The hashing/classification step -/

theorem processStep_eq (prev : List (String × FileMetadata)) (v : String)
    (m : TarMember) (cur : List (String × FileMetadata)) (cs : ArchiveChangeSet)
    (hf : m.isFile = true) :
    _process_extracted_file m.name m.content (Int.ofNat m.content.length) v
      (!(dictMem prev m.name)) (dictGet prev m.name) cur cs =
    (dictSet cur m.name (classifyMeta prev v m),
     if isNewB prev m then { cs with new_files := cs.new_files ++ [m.name] }
     else if isModB prev m then
       { cs with modified_files := cs.modified_files ++ [m.name] }
     else { cs with unchanged_files := cs.unchanged_files ++ [m.name] }) := by
  unfold _process_extracted_file classifyMeta isNewB isModB
  cases hg : dictGet prev m.name with
  | none => simp [dictMem, hg, hf]
  | some pm =>
    cases hmod : pm.sha256 != compute_sha256 m.content <;>
      simp [dictMem, hg, hf, hmod]

theorem classifyMeta_sha (prev : List (String × FileMetadata)) (v : String)
    (m : TarMember) : (classifyMeta prev v m).sha256 = compute_sha256 m.content := by
  unfold classifyMeta
  cases dictGet prev m.name with
  | none => rfl
  | some pm => by_cases h : pm.sha256 != compute_sha256 m.content <;> simp [h]

theorem classifyMeta_size (prev : List (String × FileMetadata)) (v : String)
    (m : TarMember) : (classifyMeta prev v m).size = Int.ofNat m.content.length := by
  unfold classifyMeta
  cases dictGet prev m.name with
  | none => rfl
  | some pm => by_cases h : pm.sha256 != compute_sha256 m.content <;> simp [h]

theorem classifyMeta_status_ne_removed (prev : List (String × FileMetadata)) (v : String)
    (m : TarMember) : (classifyMeta prev v m).status ≠ FileStatus.removed := by
  unfold classifyMeta
  cases dictGet prev m.name with
  | none => simp
  | some pm =>
    by_cases h : pm.sha256 != compute_sha256 m.content <;> simp [h]

theorem classifyMeta_status_of_prev (prev : List (String × FileMetadata)) (v : String)
    (m : TarMember) (pm : FileMetadata) (hg : dictGet prev m.name = some pm) :
    (classifyMeta prev v m).status =
      if pm.sha256 = compute_sha256 m.content then FileStatus.unchanged
      else FileStatus.modified := by
  unfold classifyMeta
  rw [hg]
  by_cases h : pm.sha256 = compute_sha256 m.content <;> simp [h]

theorem classifyMeta_status_unchanged_prev (prev : List (String × FileMetadata))
    (v : String) (m : TarMember)
    (h : (classifyMeta prev v m).status = FileStatus.unchanged) :
    ∃ pm, dictGet prev m.name = some pm ∧ pm.sha256 = compute_sha256 m.content := by
  rcases hg : dictGet prev m.name with _ | pm
  · unfold classifyMeta at h
    rw [hg] at h
    simp at h
  · refine ⟨pm, rfl, ?_⟩
    rw [classifyMeta_status_of_prev prev v m pm hg] at h
    by_cases hs : pm.sha256 = compute_sha256 m.content
    · exact hs
    · simp [hs] at h

/-! ## The member loop -/

theorem processMembers_written (root : List String) (v : String)
    (prev : List (String × FileMetadata)) :
    ∀ (ms : List TarMember) (written : List (List String × Bytes))
      (cur : List (String × FileMetadata)) (cs : ArchiveChangeSet),
      (processMembers root v prev ms written cur cs).1 = written ++ goodWrites root ms := by
  intro ms
  induction ms with
  | nil => intro written cur cs; simp [processMembers, goodWrites]
  | cons m rest ih =>
    intro written cur cs
    cases hf : m.isFile with
    | false => simp [processMembers, goodWrites, hf, ih]
    | true =>
      cases hu : underRoot root (destinationPath root m.name) with
      | false => simp [processMembers, goodWrites, hf, hu, _safe_extract_member]
      | true =>
        simp [processMembers, goodWrites, hf, hu, _safe_extract_member, ih]

theorem processMembers_all_of_ok (root : List String) (v : String)
    (prev : List (String × FileMetadata)) :
    ∀ (ms : List TarMember) (written : List (List String × Bytes))
      (cur : List (String × FileMetadata)) (cs : ArchiveChangeSet)
      (w' : List (List String × Bytes)) (cur' : List (String × FileMetadata))
      (cs' : ArchiveChangeSet),
      processMembers root v prev ms written cur cs = (w', Except.ok (cur', cs')) →
      ∀ m ∈ ms, memberOk root m = true := by
  intro ms
  induction ms with
  | nil => intro written cur cs w' cur' cs' h m hm; simp at hm
  | cons m0 rest ih =>
    intro written cur cs w' cur' cs' h m hm
    cases hf : m0.isFile with
    | false =>
      simp only [processMembers, hf] at h
      rcases List.mem_cons.mp hm with hm0 | hmr
      · subst hm0; simp [memberOk, hf]
      · exact ih _ _ _ _ _ _ (by simpa using h) m hmr
    | true =>
      cases hu : underRoot root (destinationPath root m0.name) with
      | false =>
        simp [processMembers, hf, _safe_extract_member, hu] at h
      | true =>
        simp only [processMembers, hf, _safe_extract_member, hu, if_pos, if_true] at h
        rcases List.mem_cons.mp hm with hm0 | hmr
        · subst hm0; simp [memberOk, hf, hu]
        · exact ih _ _ _ _ _ _ (by simpa using h) m hmr

theorem processMembers_ok_of_all (root : List String) (v : String)
    (prev : List (String × FileMetadata)) :
    ∀ (ms : List TarMember) (written : List (List String × Bytes))
      (cur : List (String × FileMetadata)) (cs : ArchiveChangeSet),
      (∀ m ∈ ms, memberOk root m = true) →
      ∃ cur' cs', processMembers root v prev ms written cur cs =
        (written ++ goodWrites root ms, Except.ok (cur', cs')) := by
  intro ms
  induction ms with
  | nil => intro written cur cs _; exact ⟨cur, cs, by simp [processMembers, goodWrites]⟩
  | cons m rest ih =>
    intro written cur cs hall
    cases hf : m.isFile with
    | false =>
      obtain ⟨cur', cs', hrec⟩ := ih written cur cs (fun x hx => hall x (List.mem_cons_of_mem m hx))
      exact ⟨cur', cs', by simp [processMembers, goodWrites, hf, hrec]⟩
    | true =>
      have hm := hall m (List.mem_cons_self m rest)
      rw [memberOk, hf] at hm
      simp only [Bool.not_true, Bool.false_or] at hm
      obtain ⟨cur', cs', hrec⟩ := ih (written ++ [(destinationPath root m.name, m.content)])
        (_process_extracted_file m.name m.content (Int.ofNat m.content.length) v
          (!(dictMem prev m.name)) (dictGet prev m.name) cur cs).1
        (_process_extracted_file m.name m.content (Int.ofNat m.content.length) v
          (!(dictMem prev m.name)) (dictGet prev m.name) cur cs).2
        (fun x hx => hall x (List.mem_cons_of_mem m hx))
      refine ⟨cur', cs', ?_⟩
      simp only [processMembers, hf, _safe_extract_member, hm, if_true, goodWrites]
      rw [hrec]
      simp [goodWrites, hf, hm]

theorem processMembers_error_spec (root : List String) (v : String)
    (prev : List (String × FileMetadata)) :
    ∀ (good : List TarMember) (bad : TarMember) (rest : List TarMember)
      (written : List (List String × Bytes)) (cur : List (String × FileMetadata))
      (cs : ArchiveChangeSet),
      (∀ m ∈ good, memberOk root m = true) → memberOk root bad = false →
      processMembers root v prev (good ++ bad :: rest) written cur cs =
        (written ++ goodWrites root good,
         Except.error (ExtractError.pathTraversal bad.name)) := by
  intro good
  induction good with
  | nil =>
    intro bad rest written cur cs _ hbad
    have hf : bad.isFile = true := by
      rw [memberOk] at hbad
      cases h : bad.isFile
      · rw [h] at hbad; simp at hbad
      · rfl
    have hu : underRoot root (destinationPath root bad.name) = false := by
      rw [memberOk, hf] at hbad
      simpa using hbad
    simp [processMembers, goodWrites, hf, hu, _safe_extract_member]
  | cons m good ih =>
    intro bad rest written cur cs hall hbad
    cases hf : m.isFile with
    | false =>
      simp only [List.cons_append, processMembers, hf, Bool.false_eq_true, if_false,
        List.append_eq]
      rw [ih bad rest written cur cs (fun x hx => hall x (List.mem_cons_of_mem m hx)) hbad]
      simp [goodWrites, hf]
    | true =>
      have hm := hall m (List.mem_cons_self m good)
      rw [memberOk, hf] at hm
      simp only [Bool.not_true, Bool.false_or] at hm
      simp only [List.cons_append, processMembers, hf, if_true, _safe_extract_member, hm,
        List.append_eq]
      rw [ih bad rest _ _ _ (fun x hx => hall x (List.mem_cons_of_mem m hx)) hbad]
      simp [goodWrites, hf, hm]

theorem processMembers_get (root : List String) (v : String)
    (prev : List (String × FileMetadata)) :
    ∀ (ms : List TarMember) (written : List (List String × Bytes))
      (cur : List (String × FileMetadata)) (cs : ArchiveChangeSet)
      (w' : List (List String × Bytes)) (cur' : List (String × FileMetadata))
      (cs' : ArchiveChangeSet),
      processMembers root v prev ms written cur cs = (w', Except.ok (cur', cs')) →
      ∀ p, dictGet cur' p =
        match lastFileNamed p ms with
        | some m => some (classifyMeta prev v m)
        | none => dictGet cur p := by
  intro ms
  induction ms with
  | nil =>
    intro written cur cs w' cur' cs' h p
    simp only [processMembers, Prod.mk.injEq, Except.ok.injEq] at h
    rw [← h.2.1]
    simp [lastFileNamed]
  | cons m rest ih =>
    intro written cur cs w' cur' cs' h p
    cases hf : m.isFile with
    | false =>
      simp only [processMembers, hf, Bool.false_eq_true, if_false] at h
      rw [ih _ _ _ _ _ _ h p]
      simp only [lastFileNamed, hf, Bool.false_and, if_false, Bool.false_eq_true]
      cases lastFileNamed p rest <;> rfl
    | true =>
      cases hu : underRoot root (destinationPath root m.name) with
      | false => simp [processMembers, hf, _safe_extract_member, hu] at h
      | true =>
        simp only [processMembers, hf, if_true, _safe_extract_member, hu] at h
        rw [processStep_eq prev v m cur cs hf] at h
        rw [ih _ _ _ _ _ _ h p]
        simp only [lastFileNamed]
        cases hlast : lastFileNamed p rest with
        | some x => rfl
        | none =>
          by_cases hp : m.name = p
          · subst hp
            simp [hf, dictGet_dictSet_eq]
          · simp [hf, hp, dictGet_dictSet_ne cur m.name p _ (fun hc => hp hc.symm)]

theorem processMembers_buckets (root : List String) (v : String)
    (prev : List (String × FileMetadata)) :
    ∀ (ms : List TarMember) (written : List (List String × Bytes))
      (cur : List (String × FileMetadata)) (cs : ArchiveChangeSet)
      (w' : List (List String × Bytes)) (cur' : List (String × FileMetadata))
      (cs' : ArchiveChangeSet),
      processMembers root v prev ms written cur cs = (w', Except.ok (cur', cs')) →
      cs'.new_files = cs.new_files ++ (ms.filter (isNewB prev)).map TarMember.name ∧
      cs'.modified_files =
        cs.modified_files ++ (ms.filter (isModB prev)).map TarMember.name ∧
      cs'.unchanged_files =
        cs.unchanged_files ++ (ms.filter (isUnchB prev)).map TarMember.name ∧
      cs'.removed_files = cs.removed_files := by
  intro ms
  induction ms with
  | nil =>
    intro written cur cs w' cur' cs' h
    simp only [processMembers, Prod.mk.injEq, Except.ok.injEq] at h
    rw [← h.2.2]
    simp
  | cons m rest ih =>
    intro written cur cs w' cur' cs' h
    cases hf : m.isFile with
    | false =>
      simp only [processMembers, hf, Bool.false_eq_true, if_false] at h
      have hq : isNewB prev m = false := by simp [isNewB, hf]
      have hq2 : isModB prev m = false := by simp [isModB, hf]
      have hq3 : isUnchB prev m = false := by simp [isUnchB, hf]
      rcases ih _ _ _ _ _ _ h with ⟨h1, h2, h3, h4⟩
      simp [List.filter_cons, hq, hq2, hq3, h1, h2, h3, h4]
    | true =>
      cases hu : underRoot root (destinationPath root m.name) with
      | false => simp [processMembers, hf, _safe_extract_member, hu] at h
      | true =>
        simp only [processMembers, hf, if_true, _safe_extract_member, hu] at h
        rw [processStep_eq prev v m cur cs hf] at h
        rcases ih _ _ _ _ _ _ h with ⟨h1, h2, h3, h4⟩
        cases hnew : isNewB prev m with
        | true =>
          have hmod : isModB prev m = false := by
            rw [isNewB, hf] at hnew
            simp only [Bool.true_and] at hnew
            rw [isModB, hf]
            rcases hg : dictGet prev m.name with _ | pm
            · simp
            · rw [dictMem, hg] at hnew; simp at hnew
          have hunch : isUnchB prev m = false := by simp [isUnchB, hnew]
          rw [hnew] at h1 h2 h3 h4
          simp only [if_true] at h1 h2 h3 h4
          simp [List.filter_cons, hnew, hmod, hunch, h1, h2, h3, h4]
        | false =>
          rw [hnew] at h1 h2 h3 h4
          simp only [Bool.false_eq_true, if_false] at h1 h2 h3 h4
          cases hmod : isModB prev m with
          | true =>
            have hunch : isUnchB prev m = false := by simp [isUnchB, hmod]
            rw [hmod] at h1 h2 h3 h4
            simp only [if_true] at h1 h2 h3 h4
            simp [List.filter_cons, hnew, hmod, hunch, h1, h2, h3, h4]
          | false =>
            have hunch : isUnchB prev m = true := by simp [isUnchB, hf, hnew, hmod]
            rw [hmod] at h1 h2 h3 h4
            simp only [Bool.false_eq_true, if_false] at h1 h2 h3 h4
            simp [List.filter_cons, hnew, hmod, hunch, h1, h2, h3, h4]

theorem processMembers_nodupKeys (root : List String) (v : String)
    (prev : List (String × FileMetadata)) :
    ∀ (ms : List TarMember) (written : List (List String × Bytes))
      (cur : List (String × FileMetadata)) (cs : ArchiveChangeSet)
      (w' : List (List String × Bytes)) (cur' : List (String × FileMetadata))
      (cs' : ArchiveChangeSet),
      processMembers root v prev ms written cur cs = (w', Except.ok (cur', cs')) →
      (dictKeys cur).Nodup → (dictKeys cur').Nodup := by
  intro ms
  induction ms with
  | nil =>
    intro written cur cs w' cur' cs' h hnd
    simp only [processMembers, Prod.mk.injEq, Except.ok.injEq] at h
    rw [← h.2.1]
    exact hnd
  | cons m rest ih =>
    intro written cur cs w' cur' cs' h hnd
    cases hf : m.isFile with
    | false =>
      simp only [processMembers, hf, Bool.false_eq_true, if_false] at h
      exact ih _ _ _ _ _ _ h hnd
    | true =>
      cases hu : underRoot root (destinationPath root m.name) with
      | false => simp [processMembers, hf, _safe_extract_member, hu] at h
      | true =>
        simp only [processMembers, hf, if_true, _safe_extract_member, hu] at h
        rw [processStep_eq prev v m cur cs hf] at h
        exact ih _ _ _ _ _ _ h (nodupKeys_dictSet cur m.name _ hnd)

/-! ## The removed-file phase -/

theorem dictGet_removedFold (v : String) (prev : List (String × FileMetadata)) :
    ∀ (ps : List String) (acc : List (String × FileMetadata)) (q : String),
      dictGet (ps.foldl (fun acc p =>
        match dictGet prev p with
        | some pm => dictSet acc p (removedMeta v pm)
        | none => acc) acc) q =
      if q ∈ ps then
        match dictGet prev q with
        | some pm => some (removedMeta v pm)
        | none => dictGet acc q
      else dictGet acc q := by
  intro ps
  induction ps with
  | nil => intro acc q; simp
  | cons p ps ih =>
    intro acc q
    simp only [List.foldl_cons]
    rw [ih]
    by_cases hq : q ∈ ps
    · rw [if_pos hq, if_pos (List.mem_cons_of_mem p hq)]
      cases hgq : dictGet prev q with
      | some pm => rfl
      | none =>
        cases hgp : dictGet prev p with
        | none => rfl
        | some pm' =>
          by_cases hpq : p = q
          · subst hpq
            rw [hgp] at hgq
            cases hgq
          · exact dictGet_dictSet_ne acc p q _ (fun hc => hpq hc.symm)
    · rw [if_neg hq]
      by_cases hpq : q = p
      · subst hpq
        rw [if_pos (List.mem_cons_self q ps)]
        cases hgq : dictGet prev q with
        | some pm => exact dictGet_dictSet_eq acc q _
        | none => rfl
      · rw [if_neg (by simp [List.mem_cons, hpq, hq])]
        cases hgp : dictGet prev p with
        | none => rfl
        | some pm' => exact dictGet_dictSet_ne acc p q _ hpq

theorem markRemoved_get (v : String) (prev cur : List (String × FileMetadata))
    (cs : ArchiveChangeSet) (p : String) :
    dictGet (markRemoved v prev cur cs).1 p =
      if dictMem cur p then dictGet cur p
      else
        match dictGet prev p with
        | some pm => some (removedMeta v pm)
        | none => none := by
  unfold markRemoved
  simp only
  rw [dictGet_removedFold]
  cases hm : dictMem cur p with
  | true =>
    have hnp : p ∉ ((dictKeys prev).filter (fun x => !(dictMem cur x))).dedup := by
      intro hc
      rw [List.mem_dedup, List.mem_filter] at hc
      rw [hm] at hc
      simp at hc
    rw [if_neg hnp]
    simp
  | false =>
    simp only [Bool.false_eq_true, if_false]
    cases hgp : dictGet prev p with
    | some pm =>
      have hp : p ∈ ((dictKeys prev).filter (fun x => !(dictMem cur x))).dedup := by
        rw [List.mem_dedup, List.mem_filter]
        refine ⟨(dictMem_iff_mem_keys prev p).mp (by simp [dictMem, hgp]), by simp [hm]⟩
      rw [if_pos hp]
    | none =>
      have hnp : p ∉ ((dictKeys prev).filter (fun x => !(dictMem cur x))).dedup := by
        intro hc
        rw [List.mem_dedup, List.mem_filter] at hc
        have hmem := (dictMem_iff_mem_keys prev p).mpr hc.1
        rw [dictMem, hgp] at hmem
        simp at hmem
      rw [if_neg hnp, (dictMem_false_iff cur p).mp hm]

theorem markRemoved_cs (v : String) (prev cur : List (String × FileMetadata))
    (cs : ArchiveChangeSet) :
    (markRemoved v prev cur cs).2 =
      { cs with removed_files :=
          ((dictKeys prev).filter (fun p => !(dictMem cur p))).dedup } := rfl

theorem removedFold_nodupKeys (v : String) (prev : List (String × FileMetadata)) :
    ∀ (ps : List String) (acc : List (String × FileMetadata)),
      (dictKeys acc).Nodup →
      (dictKeys (ps.foldl (fun acc p =>
        match dictGet prev p with
        | some pm => dictSet acc p (removedMeta v pm)
        | none => acc) acc)).Nodup := by
  intro ps
  induction ps with
  | nil => intro acc h; exact h
  | cons p ps ih =>
    intro acc h
    simp only [List.foldl_cons]
    cases hgp : dictGet prev p with
    | none => simpa [hgp] using ih _ h
    | some pm =>
      simpa [hgp] using ih _ (nodupKeys_dictSet acc p (removedMeta v pm) h)

theorem markRemoved_nodupKeys (v : String) (prev cur : List (String × FileMetadata))
    (cs : ArchiveChangeSet) (h : (dictKeys cur).Nodup) :
    (dictKeys (markRemoved v prev cur cs).1).Nodup :=
  removedFold_nodupKeys v prev _ cur h

/-! ## Top-level extraction characterization -/

theorem goodWrites_underRoot (root : List String) :
    ∀ (ms : List TarMember) (t : List String) (c : Bytes),
      (t, c) ∈ goodWrites root ms → underRoot root t = true := by
  intro ms
  induction ms with
  | nil => intro t c h; simp [goodWrites] at h
  | cons m rest ih =>
    intro t c h
    cases hf : m.isFile with
    | false =>
      rw [goodWrites, if_neg (by simp [hf])] at h
      exact ih t c h
    | true =>
      cases hu : underRoot root (destinationPath root m.name) with
      | false => simp [goodWrites, hf, hu] at h
      | true =>
        rw [goodWrites, if_pos (by simp [hf]), if_pos (by simp [hu])] at h
        rcases List.mem_cons.mp h with h0 | hr
        · have ht : t = destinationPath root m.name := ((Prod.mk.injEq _ _ _ _).mp h0).1
          rw [ht]
          exact hu
        · exact ih t c hr

theorem extract_written_eq (root : List String) (ms : List TarMember) (v : String)
    (prev : List (String × FileMetadata)) :
    (extract_tar_bz2_incremental root ms v prev).1 = goodWrites root ms := by
  unfold extract_tar_bz2_incremental
  have hw := processMembers_written root v prev ms [] [] ⟨[], [], [], []⟩
  rcases hp : processMembers root v prev ms [] [] ⟨[], [], [], []⟩ with ⟨w0, res⟩
  rw [hp] at hw
  simp only [List.nil_append] at hw
  cases res with
  | error e => simpa using hw
  | ok pr => rcases pr with ⟨curP, csP⟩; simpa using hw

theorem extract_ok_of_all (root : List String) (ms : List TarMember) (v : String)
    (prev : List (String × FileMetadata))
    (hall : ∀ m ∈ ms, memberOk root m = true) :
    ∃ cur cs, extract_tar_bz2_incremental root ms v prev =
      (goodWrites root ms, Except.ok (cur, cs)) := by
  obtain ⟨cur', cs', hp⟩ :=
    processMembers_ok_of_all root v prev ms [] [] ⟨[], [], [], []⟩ hall
  refine ⟨(markRemoved v prev cur' cs').1, (markRemoved v prev cur' cs').2, ?_⟩
  unfold extract_tar_bz2_incremental
  rw [hp]
  simp

theorem extract_all_of_ok (root : List String) (ms : List TarMember) (v : String)
    (prev : List (String × FileMetadata)) (w : List (List String × Bytes))
    (cur : List (String × FileMetadata)) (cs : ArchiveChangeSet)
    (h : extract_tar_bz2_incremental root ms v prev = (w, Except.ok (cur, cs))) :
    ∀ m ∈ ms, memberOk root m = true := by
  unfold extract_tar_bz2_incremental at h
  rcases hp : processMembers root v prev ms [] [] ⟨[], [], [], []⟩ with ⟨w0, res⟩
  rw [hp] at h
  cases res with
  | error e => simp at h
  | ok pr =>
    rcases pr with ⟨curP, csP⟩
    exact processMembers_all_of_ok root v prev ms [] [] ⟨[], [], [], []⟩ w0 curP csP hp

theorem extract_error_spec (root : List String) (v : String)
    (prev : List (String × FileMetadata)) (good : List TarMember) (bad : TarMember)
    (rest : List TarMember)
    (hall : ∀ m ∈ good, memberOk root m = true) (hbad : memberOk root bad = false) :
    extract_tar_bz2_incremental root (good ++ bad :: rest) v prev =
      (goodWrites root good, Except.error (ExtractError.pathTraversal bad.name)) := by
  unfold extract_tar_bz2_incremental
  rw [processMembers_error_spec root v prev good bad rest [] [] ⟨[], [], [], []⟩ hall hbad]
  simp

theorem extract_ok_destructure (root : List String) (ms : List TarMember) (v : String)
    (prev : List (String × FileMetadata)) (w : List (List String × Bytes))
    (cur : List (String × FileMetadata)) (cs : ArchiveChangeSet)
    (h : extract_tar_bz2_incremental root ms v prev = (w, Except.ok (cur, cs))) :
    ∃ curP csP,
      processMembers root v prev ms [] [] ⟨[], [], [], []⟩ =
        (w, Except.ok (curP, csP)) ∧
      cur = (markRemoved v prev curP csP).1 ∧ cs = (markRemoved v prev curP csP).2 := by
  unfold extract_tar_bz2_incremental at h
  rcases hp : processMembers root v prev ms [] [] ⟨[], [], [], []⟩ with ⟨w0, res⟩
  rw [hp] at h
  cases res with
  | error e => simp at h
  | ok pr =>
    rcases pr with ⟨curP, csP⟩
    simp only [Prod.mk.injEq, Except.ok.injEq] at h
    refine ⟨curP, csP, ?_, h.2.1.symm, h.2.2.symm⟩
    rw [h.1]

theorem extract_ok_get (root : List String) (ms : List TarMember) (v : String)
    (prev : List (String × FileMetadata)) (w : List (List String × Bytes))
    (cur : List (String × FileMetadata)) (cs : ArchiveChangeSet)
    (h : extract_tar_bz2_incremental root ms v prev = (w, Except.ok (cur, cs)))
    (p : String) :
    dictGet cur p =
      match lastFileNamed p ms with
      | some m => some (classifyMeta prev v m)
      | none =>
        match dictGet prev p with
        | some pm => some (removedMeta v pm)
        | none => none := by
  obtain ⟨curP, csP, hp, hcur, _⟩ := extract_ok_destructure root ms v prev w cur cs h
  have hget := processMembers_get root v prev ms [] [] ⟨[], [], [], []⟩ w curP csP hp p
  rw [hcur, markRemoved_get]
  cases hlast : lastFileNamed p ms with
  | some m =>
    rw [hlast] at hget
    have hmem : dictMem curP p = true := by rw [dictMem, hget]; rfl
    simp [hmem, hget]
  | none =>
    rw [hlast] at hget
    simp only [dictGet] at hget
    have hmem : dictMem curP p = false := by rw [dictMem, hget]; rfl
    simp [hmem]

theorem extract_ok_nodupKeys (root : List String) (ms : List TarMember) (v : String)
    (prev : List (String × FileMetadata)) (w : List (List String × Bytes))
    (cur : List (String × FileMetadata)) (cs : ArchiveChangeSet)
    (h : extract_tar_bz2_incremental root ms v prev = (w, Except.ok (cur, cs))) :
    (dictKeys cur).Nodup := by
  obtain ⟨curP, csP, hp, hcur, _⟩ := extract_ok_destructure root ms v prev w cur cs h
  have hnd := processMembers_nodupKeys root v prev ms [] [] ⟨[], [], [], []⟩ w curP csP hp
    (by simp [dictKeys])
  rw [hcur]
  exact markRemoved_nodupKeys v prev curP csP hnd

theorem extract_ok_buckets (root : List String) (ms : List TarMember) (v : String)
    (prev : List (String × FileMetadata)) (w : List (List String × Bytes))
    (cur : List (String × FileMetadata)) (cs : ArchiveChangeSet)
    (h : extract_tar_bz2_incremental root ms v prev = (w, Except.ok (cur, cs))) :
    cs.new_files = (ms.filter (isNewB prev)).map TarMember.name ∧
    cs.modified_files = (ms.filter (isModB prev)).map TarMember.name ∧
    cs.unchanged_files = (ms.filter (isUnchB prev)).map TarMember.name ∧
    cs.removed_files =
      ((dictKeys prev).filter (fun p => (lastFileNamed p ms).isNone)).dedup := by
  obtain ⟨curP, csP, hp, _, hcs⟩ := extract_ok_destructure root ms v prev w cur cs h
  rcases processMembers_buckets root v prev ms [] [] ⟨[], [], [], []⟩ w curP csP hp with
    ⟨h1, h2, h3, _⟩
  rw [hcs, markRemoved_cs]
  simp only [h1, h2, h3, List.nil_append]
  refine ⟨trivial, trivial, trivial, ?_⟩
  have hcong : ∀ p ∈ dictKeys prev,
      (!(dictMem curP p)) = (lastFileNamed p ms).isNone := by
    intro p _
    have hget := processMembers_get root v prev ms [] [] ⟨[], [], [], []⟩ w curP csP hp p
    cases hlast : lastFileNamed p ms with
    | some m =>
      rw [hlast] at hget
      simp [dictMem, hget]
    | none =>
      rw [hlast] at hget
      simp only [dictGet] at hget
      simp [dictMem, hget]
  rw [List.filter_congr hcong]

/-! ## Helper lemmas about archive occurrences -/

theorem compute_sha256_length (c : Bytes) : (compute_sha256 c).length = c.length := rfl

theorem dictGet_mem {α : Type} : ∀ (d : List (String × α)) (k : String) (v : α),
    dictGet d k = some v → (k, v) ∈ d := by
  intro d
  induction d with
  | nil => intro k v h; cases h
  | cons kv rest ih =>
    rcases kv with ⟨k1, v1⟩
    intro k v h
    rw [dictGet] at h
    by_cases hk : k1 = k
    · rw [if_pos hk] at h
      injection h with h
      subst hk
      subst h
      exact List.mem_cons_self _ _
    · rw [if_neg hk] at h
      exact List.mem_cons_of_mem _ (ih k v h)

theorem lastFileNamed_spec (p : String) : ∀ (ms : List TarMember) (m : TarMember),
    lastFileNamed p ms = some m → m ∈ ms ∧ m.isFile = true ∧ m.name = p := by
  intro ms
  induction ms with
  | nil => intro m h; cases h
  | cons m0 rest ih =>
    intro m h
    rw [lastFileNamed] at h
    cases hl : lastFileNamed p rest with
    | some x =>
      rw [hl] at h
      injection h with h
      obtain ⟨h1, h2, h3⟩ := ih x hl
      rw [← h]
      exact ⟨List.mem_cons_of_mem m0 h1, h2, h3⟩
    | none =>
      rw [hl] at h
      by_cases hcond : (m0.isFile && decide (m0.name = p)) = true
      · rw [if_pos hcond] at h
        injection h with h
        simp only [Bool.and_eq_true, decide_eq_true_eq] at hcond
        rw [← h]
        exact ⟨List.mem_cons_self m0 rest, hcond.1, hcond.2⟩
      · rw [if_neg hcond] at h
        cases h

theorem fileNamesOf_cons (m : TarMember) (rest : List TarMember) :
    fileNamesOf (m :: rest) =
      if m.isFile then m.name :: fileNamesOf rest else fileNamesOf rest := by
  unfold fileNamesOf
  rw [List.filter_cons]
  cases hf : m.isFile <;> simp

theorem lastFileNamed_eq_none_iff (p : String) : ∀ (ms : List TarMember),
    lastFileNamed p ms = none ↔ p ∉ fileNamesOf ms := by
  intro ms
  induction ms with
  | nil => simp [lastFileNamed, fileNamesOf]
  | cons m rest ih =>
    rw [lastFileNamed, fileNamesOf_cons]
    cases hl : lastFileNamed p rest with
    | some x =>
      rw [hl] at ih
      have hmem : p ∈ fileNamesOf rest := by
        by_contra hc
        cases ih.mpr hc
      constructor
      · intro h; cases h
      · intro hnot
        exfalso
        cases hf : m.isFile with
        | false => rw [hf] at hnot; simp at hnot; exact hnot hmem
        | true =>
          rw [hf] at hnot
          simp at hnot
          exact hnot.2 hmem
    | none =>
      rw [hl] at ih
      have hnot : p ∉ fileNamesOf rest := ih.mp rfl
      cases hf : m.isFile with
      | false => simp [hf, hnot]
      | true =>
        by_cases hn : m.name = p
        · simp [hf, hn]
        · simp [hf, hn, hnot]
          exact fun hc => hn hc.symm

theorem lastFileNamed_of_nodup : ∀ (ms : List TarMember) (m : TarMember),
    (fileNamesOf ms).Nodup → m ∈ ms → m.isFile = true →
    lastFileNamed m.name ms = some m := by
  intro ms
  induction ms with
  | nil => intro m _ hm _; cases hm
  | cons m0 rest ih =>
    intro m hnd hm hf
    rw [lastFileNamed]
    rcases List.mem_cons.mp hm with h0 | hr
    · subst h0
      rw [fileNamesOf_cons, hf] at hnd
      simp only [if_true] at hnd
      have hnone : lastFileNamed m.name rest = none := by
        rw [lastFileNamed_eq_none_iff]
        exact (List.nodup_cons.mp hnd).1
      rw [hnone]
      rw [if_pos (by simp [hf])]
    · have hndr : (fileNamesOf rest).Nodup := by
        rw [fileNamesOf_cons] at hnd
        cases hf0 : m0.isFile with
        | false => rw [hf0] at hnd; simpa using hnd
        | true =>
          rw [hf0] at hnd
          exact (List.nodup_cons.mp (by simpa using hnd)).2
      rw [ih m hndr hr hf]

/-! ## C1: a Removed record whose path reappears -/

/-- C1 counterexample: a previous record with status Removed is retained in
previousFiles, so when its path reappears in the archive (here with the very
content its stored digest encodes), the resulting record is classified
Unchanged, not Added as the claim states. -/
theorem c1_counterexample :
    ((extract_tar_bz2_incremental []
        [{ name := "a", isFile := true, content := ['x'] }] "v2"
        [("a", { path := "a", size := 1, sha256 := "x", last_changed := some "v1",
                 status := FileStatus.removed })]).2.toOption.map
      (fun out => (dictGet out.1 "a").map FileMetadata.status)) =
      some (some FileStatus.unchanged) ∧
    some (some FileStatus.unchanged) ≠ some (some FileStatus.added) := by
  exact ⟨rfl, by decide⟩

/-- C1 (amended): a Removed record is retained in previousFiles, so a path
that reappears in the archive is classified against that record by hash
comparison: Unchanged when the stored digest equals the recomputed digest of
the (last) archive occurrence, Modified otherwise — never Added (Added
requires the previous record to be absent from previousFiles). -/
theorem c1_removed_reappears :
    ∀ (root : List String) (ms : List TarMember) (v : String)
      (prev : List (String × FileMetadata)) (w : List (List String × Bytes))
      (cur : List (String × FileMetadata)) (cs : ArchiveChangeSet)
      (p : String) (pm : FileMetadata) (m : TarMember),
      extract_tar_bz2_incremental root ms v prev = (w, Except.ok (cur, cs)) →
      dictGet prev p = some pm → pm.status = FileStatus.removed →
      lastFileNamed p ms = some m →
      dictGet cur p = some (classifyMeta prev v m) ∧
      (classifyMeta prev v m).status =
        (if pm.sha256 = compute_sha256 m.content then FileStatus.unchanged
         else FileStatus.modified) := by
  intro root ms v prev w cur cs p pm m h hg hstat hlast
  constructor
  · rw [extract_ok_get root ms v prev w cur cs h p, hlast]
  · obtain ⟨_, _, hname⟩ := lastFileNamed_spec p ms m hlast
    rw [← hname] at hg
    exact classifyMeta_status_of_prev prev v m pm hg

/-- Witness for C1 at a concrete archive: the reappearing removed path "a"
is stored with the record the classifier computes for it (here Unchanged). -/
theorem c1_removed_reappears_witness :
    dictGet [("a", { path := "a", size := 1, sha256 := "x", last_changed := some "v1",
                     status := FileStatus.unchanged })] "a" =
      some (classifyMeta
        [("a", { path := "a", size := 1, sha256 := "x", last_changed := some "v1",
                 status := FileStatus.removed })] "v2"
        { name := "a", isFile := true, content := ['x'] }) :=
  (c1_removed_reappears [] [{ name := "a", isFile := true, content := ['x'] }] "v2"
    [("a", { path := "a", size := 1, sha256 := "x", last_changed := some "v1",
             status := FileStatus.removed })]
    [(["a"], ['x'])]
    [("a", { path := "a", size := 1, sha256 := "x", last_changed := some "v1",
             status := FileStatus.unchanged })]
    ⟨[], [], [], ["a"]⟩ "a"
    { path := "a", size := 1, sha256 := "x", last_changed := some "v1",
      status := FileStatus.removed }
    { name := "a", isFile := true, content := ['x'] }
    (by rfl) rfl rfl rfl).1

/-! ## C2: hash/size carry-forward for Unchanged and Removed records -/

/-- C2 counterexample: an Unchanged record does not carry its size forward:
the size is recomputed from the current archive entry.  A prior record whose
stored size (7) disagrees with its digest's content (1 byte) yields an
Unchanged record of size 1, not 7. -/
theorem c2_counterexample :
    ((extract_tar_bz2_incremental []
        [{ name := "a", isFile := true, content := ['x'] }] "v"
        [("a", { path := "a", size := 7, sha256 := "x", last_changed := none,
                 status := FileStatus.unchanged })]).2.toOption.map
      (fun out => (dictGet out.1 "a").map (fun r => (r.status, r.size)))) =
      some (some (FileStatus.unchanged, 1)) ∧
    (1 : Int) ≠ 7 := by
  exact ⟨rfl, by decide⟩

/-- C2 (amended): a Removed record carries both contentHash and size forward
unmodified from the prior record.  An Unchanged record carries the
contentHash forward (its freshly computed digest coincides with the stored
one); its size is recomputed from the current archive entry, and therefore
equals the prior record's size whenever that record is hash-consistent (its
size is the length of the content its digest encodes — true of every record
the extractor itself produces).  Added and Modified records carry a freshly
computed digest of the corresponding (last) archive occurrence. -/
theorem c2_carry_forward :
    ∀ (root : List String) (ms : List TarMember) (v : String)
      (prev : List (String × FileMetadata)) (w : List (List String × Bytes))
      (cur : List (String × FileMetadata)) (cs : ArchiveChangeSet),
      extract_tar_bz2_incremental root ms v prev = (w, Except.ok (cur, cs)) →
      ∀ p r, dictGet cur p = some r →
        (r.status = FileStatus.removed →
          ∃ pm, dictGet prev p = some pm ∧ r.sha256 = pm.sha256 ∧ r.size = pm.size) ∧
        (r.status = FileStatus.unchanged →
          ∃ pm, dictGet prev p = some pm ∧ r.sha256 = pm.sha256 ∧
            (pm.size = Int.ofNat pm.sha256.length → r.size = pm.size)) ∧
        ((r.status = FileStatus.added ∨ r.status = FileStatus.modified) →
          ∃ m, lastFileNamed p ms = some m ∧ r.sha256 = compute_sha256 m.content) := by
  intro root ms v prev w cur cs h p r hget
  have hchar := extract_ok_get root ms v prev w cur cs h p
  rw [hget] at hchar
  cases hlast : lastFileNamed p ms with
  | some m =>
    rw [hlast] at hchar
    injection hchar with hr
    refine ⟨?_, ?_, ?_⟩
    · intro hst
      exfalso
      rw [hr] at hst
      exact classifyMeta_status_ne_removed prev v m hst
    · intro hst
      rw [hr] at hst ⊢
      obtain ⟨pm, hg, hsha⟩ := classifyMeta_status_unchanged_prev prev v m hst
      obtain ⟨_, _, hname⟩ := lastFileNamed_spec p ms m hlast
      rw [hname] at hg
      refine ⟨pm, hg, ?_, ?_⟩
      · rw [classifyMeta_sha, hsha]
      · intro hcons
        rw [classifyMeta_size, hcons, hsha, compute_sha256_length]
    · intro _
      exact ⟨m, rfl, by rw [hr, classifyMeta_sha]⟩
  | none =>
    rw [hlast] at hchar
    cases hg : dictGet prev p with
    | none => rw [hg] at hchar; cases hchar
    | some pm =>
      rw [hg] at hchar
      injection hchar with hr
      refine ⟨?_, ?_, ?_⟩
      · intro _
        exact ⟨pm, rfl, by rw [hr]; rfl, by rw [hr]; rfl⟩
      · intro hst
        exfalso
        rw [hr] at hst
        simp [removedMeta] at hst
      · intro hst
        exfalso
        rw [hr] at hst
        rcases hst with hst | hst <;> simp [removedMeta] at hst

/-- Witness for C2 at a concrete archive: the carried-forward Removed record
for "b" keeps its stored digest and size. -/
theorem c2_carry_forward_witness :
    ∃ pm : FileMetadata,
      dictGet [("a", { path := "a", size := 1, sha256 := "x",
                       last_changed := some "v1",
                       status := FileStatus.unchanged }),
               ("b", { path := "b", size := 2, sha256 := "yz",
                       last_changed := none,
                       status := FileStatus.unchanged })] "b" = some pm ∧
      (removedMeta "v2" { path := "b", size := 2, sha256 := "yz",
                          last_changed := none,
                          status := FileStatus.unchanged }).sha256 = pm.sha256 ∧
      (removedMeta "v2" { path := "b", size := 2, sha256 := "yz",
                          last_changed := none,
                          status := FileStatus.unchanged }).size = pm.size :=
  (c2_carry_forward [] [{ name := "a", isFile := true, content := ['x'] }] "v2"
    [("a", { path := "a", size := 1, sha256 := "x", last_changed := some "v1",
             status := FileStatus.unchanged }),
     ("b", { path := "b", size := 2, sha256 := "yz", last_changed := none,
             status := FileStatus.unchanged })]
    [(["a"], ['x'])]
    [("a", { path := "a", size := 1, sha256 := "x", last_changed := some "v1",
             status := FileStatus.unchanged }),
     ("b", { path := "b", size := 2, sha256 := "yz", last_changed := some "v2",
             status := FileStatus.removed })]
    ⟨[], [], ["b"], ["a"]⟩ (by rfl) "b"
    { path := "b", size := 2, sha256 := "yz", last_changed := some "v2",
      status := FileStatus.removed }
    (by rfl)).1 rfl

/-! ## C3: traversal rejection -/

/-- C3 counterexample: the guard accepts a destination equal to the root
itself.  The member name x/.. canonicalizes to exactly the destination root,
which is not a STRICT descendant of it, yet _safe_extract_member succeeds
and the extraction does not fail with a path-traversal error (on a real
filesystem it would fail later, with a different error, when opening the
directory for writing). -/
theorem c3_counterexample :
    isStrictDescendant ["d"] (destinationPath ["d"] "x/..") = false ∧
    _safe_extract_member ["d"] "x/.." = Except.ok ["d"] ∧
    ((extract_tar_bz2_incremental ["d"]
        [{ name := "x/..", isFile := true, content := [] }] "v" []).2.toOption).isSome =
      true := by
  exact ⟨rfl, rfl, rfl⟩

/-- C3 (amended): with "strict descendant" weakened to "descendant or the
root itself" the guard is exact: every file the extraction writes lies under
the destination root, and if any file member canonicalizes outside the root
then the first such member aborts the whole extraction with a PathTraversal
error carrying its name, with exactly the writes of the preceding members on
disk and nothing written for the offending entry or any later entry. -/
theorem c3_traversal_amended :
    ∀ (root : List String) (ms : List TarMember) (v : String)
      (prev : List (String × FileMetadata)),
      (∀ t c, (t, c) ∈ (extract_tar_bz2_incremental root ms v prev).1 →
        underRoot root t = true) ∧
      (∀ good bad rest, ms = good ++ bad :: rest →
        (∀ m ∈ good, memberOk root m = true) →
        bad.isFile = true →
        underRoot root (destinationPath root bad.name) = false →
        extract_tar_bz2_incremental root ms v prev =
          (goodWrites root good, Except.error (ExtractError.pathTraversal bad.name))) := by
  intro root ms v prev
  constructor
  · intro t c hmem
    rw [extract_written_eq] at hmem
    exact goodWrites_underRoot root ms t c hmem
  · intro good bad rest hms hall hf hu
    subst hms
    refine extract_error_spec root v prev good bad rest hall ?_
    rw [memberOk, hf]
    simpa using hu

/-- Witness for C3 (amended) at a concrete archive: the entry ../e resolves
outside the root and the whole extraction fails with a PathTraversal error
before anything is written. -/
theorem c3_traversal_amended_witness :
    extract_tar_bz2_incremental ["d"]
      [{ name := "../e", isFile := true, content := ['z'] }] "v" [] =
      ([], Except.error (ExtractError.pathTraversal "../e")) :=
  (c3_traversal_amended ["d"] [{ name := "../e", isFile := true, content := ['z'] }]
    "v" []).2
    [] { name := "../e", isFile := true, content := ['z'] } [] rfl
    (by intro m hm; simp at hm) rfl rfl

/-! ## C10: duplicate member names -/

theorem classify_cases (prev : List (String × FileMetadata)) (m : TarMember)
    (hf : m.isFile = true) :
    (isNewB prev m = true ∧ isModB prev m = false ∧ isUnchB prev m = false) ∨
    (isNewB prev m = false ∧ isModB prev m = true ∧ isUnchB prev m = false) ∨
    (isNewB prev m = false ∧ isModB prev m = false ∧ isUnchB prev m = true) := by
  cases hg : dictGet prev m.name with
  | none =>
    left
    have h1 : isNewB prev m = true := by simp [isNewB, hf, dictMem, hg]
    have h2 : isModB prev m = false := by simp [isModB, hg]
    exact ⟨h1, h2, by simp [isUnchB, h1]⟩
  | some pm =>
    have h1 : isNewB prev m = false := by simp [isNewB, dictMem, hg]
    cases hs : pm.sha256 != compute_sha256 m.content with
    | true =>
      right; left
      have h2 : isModB prev m = true := by simp [isModB, hf, hg, hs]
      exact ⟨h1, h2, by simp [isUnchB, h2]⟩
    | false =>
      right; right
      have h2 : isModB prev m = false := by simp [isModB, hg, hs]
      exact ⟨h1, h2, by simp [isUnchB, hf, h1, h2]⟩

theorem count_name_filter (q : TarMember → Bool) (p : String) :
    ∀ ms : List TarMember,
      ((ms.filter q).map TarMember.name).count p =
        (ms.filter (fun m => q m && m.name = p)).length := by
  intro ms
  induction ms with
  | nil => rfl
  | cons m rest ih =>
    rw [List.filter_cons, List.filter_cons]
    cases hq : q m with
    | false => simpa using ih
    | true =>
      by_cases hn : m.name = p
      · simp [hn, List.count_cons, ih]
      · simp [hn, List.count_cons, ih]

theorem filter_three_split (prev : List (String × FileMetadata)) (p : String) :
    ∀ ms : List TarMember,
      (ms.filter (fun m => isNewB prev m && m.name = p)).length +
      (ms.filter (fun m => isModB prev m && m.name = p)).length +
      (ms.filter (fun m => isUnchB prev m && m.name = p)).length =
      (ms.filter (fun m => m.isFile && m.name = p)).length := by
  intro ms
  induction ms with
  | nil => rfl
  | cons m rest ih =>
    simp only [List.filter_cons]
    cases hf : m.isFile with
    | false =>
      have e1 : isNewB prev m = false := by simp [isNewB, hf]
      have e2 : isModB prev m = false := by simp [isModB, hf]
      have e3 : isUnchB prev m = false := by simp [isUnchB, hf]
      simp [e1, e2, e3, hf, ih]
    | true =>
      by_cases hn : m.name = p
      · rcases classify_cases prev m hf with ⟨h1, h2, h3⟩ | ⟨h1, h2, h3⟩ | ⟨h1, h2, h3⟩ <;>
          simp [h1, h2, h3, hf, hn, ih] <;> omega
      · simp [hn, ih]

/-- C10: when an archive contains two or more file members sharing a name,
the current-files map ends with exactly one entry for that path — the
last-processed member's metadata — while the changeset buckets receive one
element per member occurrence, so the path appears at least twice across
the added/modified/unchanged buckets. -/
theorem c10_duplicate_members :
    ∀ (root : List String) (ms : List TarMember) (v : String)
      (prev : List (String × FileMetadata)) (w : List (List String × Bytes))
      (cur : List (String × FileMetadata)) (cs : ArchiveChangeSet) (p : String),
      extract_tar_bz2_incremental root ms v prev = (w, Except.ok (cur, cs)) →
      2 ≤ (ms.filter (fun m => m.isFile && m.name = p)).length →
      countKey cur p = 1 ∧
      (∃ m, lastFileNamed p ms = some m ∧ dictGet cur p = some (classifyMeta prev v m)) ∧
      cs.new_files.count p + cs.modified_files.count p + cs.unchanged_files.count p =
        (ms.filter (fun m => m.isFile && m.name = p)).length ∧
      2 ≤ cs.new_files.count p + cs.modified_files.count p +
          cs.unchanged_files.count p := by
  intro root ms v prev w cur cs p h hdup
  have hmemname : p ∈ fileNamesOf ms := by
    have hne : ms.filter (fun m => m.isFile && m.name = p) ≠ [] := by
      intro hc
      rw [hc] at hdup
      simp at hdup
    obtain ⟨m0, hm0⟩ := List.exists_mem_of_ne_nil _ hne
    obtain ⟨hmem, hcond⟩ := List.mem_filter.mp hm0
    simp only [Bool.and_eq_true, decide_eq_true_eq] at hcond
    unfold fileNamesOf
    exact List.mem_map.mpr ⟨m0, List.mem_filter.mpr ⟨hmem, by simp [hcond.1]⟩, hcond.2⟩
  cases hlast : lastFileNamed p ms with
  | none => exact absurd hmemname ((lastFileNamed_eq_none_iff p ms).mp hlast)
  | some m =>
    have hget := extract_ok_get root ms v prev w cur cs h p
    rw [hlast] at hget
    have hmem : dictMem cur p = true := by rw [dictMem, hget]; rfl
    have hnd := extract_ok_nodupKeys root ms v prev w cur cs h
    have hcount1 : countKey cur p = 1 := by
      unfold countKey
      exact List.count_eq_one_of_mem hnd ((dictMem_iff_mem_keys cur p).mp hmem)
    obtain ⟨hb1, hb2, hb3, _⟩ := extract_ok_buckets root ms v prev w cur cs h
    have hcnt : cs.new_files.count p + cs.modified_files.count p +
        cs.unchanged_files.count p =
        (ms.filter (fun m => m.isFile && m.name = p)).length := by
      rw [hb1, hb2, hb3, count_name_filter, count_name_filter, count_name_filter,
        filter_three_split]
    exact ⟨hcount1, ⟨m, rfl, hget⟩, hcnt, by omega⟩

/-- Witness for C10 at a concrete archive holding the name "a" twice: one
map entry survives while the new bucket lists the path twice. -/
theorem c10_duplicate_members_witness :
    countKey ([("a", { path := "a", size := 1, sha256 := "y", last_changed := some "v",
                       status := FileStatus.added })] :
      List (String × FileMetadata)) "a" = 1 ∧
    2 ≤ (["a", "a"] : List String).count "a" + ([] : List String).count "a" +
        ([] : List String).count "a" := by
  have h := c10_duplicate_members []
    [{ name := "a", isFile := true, content := ['x'] },
     { name := "a", isFile := true, content := ['y'] }] "v" []
    [(["a"], ['x']), (["a"], ['y'])]
    [("a", { path := "a", size := 1, sha256 := "y", last_changed := some "v",
             status := FileStatus.added })]
    ⟨["a", "a"], [], [], []⟩ "a" (by rfl) (by decide)
  exact ⟨h.1, h.2.2.2⟩

/-! ## C4: re-running extraction on an unchanged archive -/

/-- C4 counterexample: re-running extraction with previousFiles equal to the
prior run's output is NOT a changeset with empty added/modified/removed and
all paths Unchanged, in two ways.  First, a Removed record in the prior
output (here "b", soft-deleted by the prior run) is re-listed in
removed_files on every further run.  Second, when the archive holds the same
file name twice with different contents, the prior output stores the last
occurrence's digest, so the rerun re-lists the earlier occurrence as
modified on every run. -/
theorem c4_counterexample :
    extract_tar_bz2_incremental [] [{ name := "a", isFile := true, content := ['x'] }]
      "v" [("b", { path := "b", size := 1, sha256 := "y", last_changed := none,
                   status := FileStatus.unchanged })] =
      ([(["a"], ['x'])],
       Except.ok
        ([("a", { path := "a", size := 1, sha256 := "x", last_changed := some "v",
                  status := FileStatus.added }),
          ("b", { path := "b", size := 1, sha256 := "y", last_changed := some "v",
                  status := FileStatus.removed })],
         ⟨["a"], [], ["b"], []⟩)) ∧
    ((extract_tar_bz2_incremental [] [{ name := "a", isFile := true, content := ['x'] }]
        "v"
        [("a", { path := "a", size := 1, sha256 := "x", last_changed := some "v",
                 status := FileStatus.added }),
         ("b", { path := "b", size := 1, sha256 := "y", last_changed := some "v",
                 status := FileStatus.removed })]).2.toOption.map
      (fun out => out.2.removed_files)) = some ["b"] ∧
    some (["b"] : List String) ≠ some ([] : List String) ∧
    extract_tar_bz2_incremental []
      [{ name := "a", isFile := true, content := ['x'] },
       { name := "a", isFile := true, content := ['y'] }] "v" [] =
      ([(["a"], ['x']), (["a"], ['y'])],
       Except.ok
        ([("a", { path := "a", size := 1, sha256 := "y", last_changed := some "v",
                  status := FileStatus.added })],
         ⟨["a", "a"], [], [], []⟩)) ∧
    ((extract_tar_bz2_incremental []
        [{ name := "a", isFile := true, content := ['x'] },
         { name := "a", isFile := true, content := ['y'] }] "v"
        [("a", { path := "a", size := 1, sha256 := "y", last_changed := some "v",
                 status := FileStatus.added })]).2.toOption.map
      (fun out => out.2.modified_files)) = some ["a"] ∧
    some (["a"] : List String) ≠ some ([] : List String) := by
  refine ⟨rfl, rfl, by decide, rfl, rfl, by decide⟩

/-- C4 (amended): re-running extraction, with previousFiles equal to the
prior run's output, on an unchanged archive, yields an empty added bucket
and classifies every archive path Unchanged in the output map; the removed
bucket re-lists exactly the prior output's Removed paths, which stay
Removed in the rerun's output map.  The modified bucket is also empty
provided the archive's file-member names are distinct (an archive holding
one name twice with different contents re-lists the earlier occurrence as
modified on every rerun).  When additionally the prior output holds no
Removed record, the original claim holds in full: empty
added/modified/removed and every stored path Unchanged. -/
theorem c4_idempotent_rerun :
    ∀ (root : List String) (ms : List TarMember) (v1 v2 : String)
      (prev : List (String × FileMetadata)) (w1 : List (List String × Bytes))
      (cur1 : List (String × FileMetadata)) (cs1 : ArchiveChangeSet),
      extract_tar_bz2_incremental root ms v1 prev = (w1, Except.ok (cur1, cs1)) →
      ∃ w2 cur2 cs2,
        extract_tar_bz2_incremental root ms v2 cur1 = (w2, Except.ok (cur2, cs2)) ∧
        cs2.new_files = [] ∧
        ((fileNamesOf ms).Nodup → cs2.modified_files = []) ∧
        (∀ p, p ∈ fileNamesOf ms →
          ∃ r, dictGet cur2 p = some r ∧ r.status = FileStatus.unchanged) ∧
        (∀ p, p ∈ cs2.removed_files ↔
          ∃ r, dictGet cur1 p = some r ∧ r.status = FileStatus.removed) ∧
        (∀ p, p ∈ cs2.removed_files →
          ∃ r2, dictGet cur2 p = some r2 ∧ r2.status = FileStatus.removed) ∧
        ((∀ kv ∈ cur1, kv.2.status ≠ FileStatus.removed) →
          cs2.removed_files = [] ∧
          ∀ p r, dictGet cur2 p = some r → r.status = FileStatus.unchanged) := by
  intro root ms v1 v2 prev w1 cur1 cs1 h1
  have hall := extract_all_of_ok root ms v1 prev w1 cur1 cs1 h1
  obtain ⟨cur2, cs2, h2⟩ := extract_ok_of_all root ms v2 cur1 hall
  have hlastfact : ∀ p m, lastFileNamed p ms = some m →
      dictGet cur1 p = some (classifyMeta prev v1 m) := by
    intro p m hlast
    have hg := extract_ok_get root ms v1 prev w1 cur1 cs1 h1 p
    rw [hlast] at hg
    exact hg
  obtain ⟨hb1, hb2, hb3, hb4⟩ :=
    extract_ok_buckets root ms v2 cur1 (goodWrites root ms) cur2 cs2 h2
  have hnotnew : ∀ m ∈ ms, isNewB cur1 m = false := by
    intro m hm
    cases hf : m.isFile with
    | false => simp [isNewB, hf]
    | true =>
      have hmem : m.name ∈ fileNamesOf ms := by
        unfold fileNamesOf
        exact List.mem_map.mpr ⟨m, List.mem_filter.mpr ⟨hm, by simp [hf]⟩, rfl⟩
      cases hlast : lastFileNamed m.name ms with
      | none => exact absurd hmem ((lastFileNamed_eq_none_iff m.name ms).mp hlast)
      | some m' => simp [isNewB, hf, dictMem, hlastfact m.name m' hlast]
  have hnew : cs2.new_files = [] := by
    rw [hb1, List.filter_eq_nil_iff.mpr (fun m hm => by rw [hnotnew m hm]; simp)]
    rfl
  have hmodN : (fileNamesOf ms).Nodup → cs2.modified_files = [] := by
    intro hnd
    have hnotmod : ∀ m ∈ ms, isModB cur1 m = false := by
      intro m hm
      cases hf : m.isFile with
      | false => simp [isModB, hf]
      | true =>
        have hg := hlastfact m.name m (lastFileNamed_of_nodup ms m hnd hm hf)
        simp [isModB, hf, hg, classifyMeta_sha]
    rw [hb2, List.filter_eq_nil_iff.mpr (fun m hm => by rw [hnotmod m hm]; simp)]
    rfl
  have hremiff : ∀ p, p ∈ cs2.removed_files ↔
      ∃ r, dictGet cur1 p = some r ∧ r.status = FileStatus.removed := by
    intro p
    rw [hb4, List.mem_dedup, List.mem_filter]
    constructor
    · rintro ⟨hk, hcond⟩
      have hmem : dictMem cur1 p = true := (dictMem_iff_mem_keys cur1 p).mpr hk
      rw [dictMem] at hmem
      obtain ⟨r, hr⟩ := Option.isSome_iff_exists.mp hmem
      refine ⟨r, hr, ?_⟩
      have hlast : lastFileNamed p ms = none := by
        cases hl : lastFileNamed p ms with
        | none => rfl
        | some x => rw [hl] at hcond; simp at hcond
      have hchar := extract_ok_get root ms v1 prev w1 cur1 cs1 h1 p
      rw [hlast, hr] at hchar
      cases hg : dictGet prev p with
      | none => rw [hg] at hchar; cases hchar
      | some pm =>
        rw [hg] at hchar
        injection hchar with hr2
        rw [hr2]
        rfl
    · rintro ⟨r, hr, hst⟩
      refine ⟨(dictMem_iff_mem_keys cur1 p).mp (by rw [dictMem, hr]; rfl), ?_⟩
      cases hlast : lastFileNamed p ms with
      | none => simp
      | some m =>
        exfalso
        have hchar := extract_ok_get root ms v1 prev w1 cur1 cs1 h1 p
        rw [hlast, hr] at hchar
        injection hchar with hr2
        rw [hr2] at hst
        exact classifyMeta_status_ne_removed prev v1 m hst
  have hunchnames : ∀ p, p ∈ fileNamesOf ms →
      ∃ r, dictGet cur2 p = some r ∧ r.status = FileStatus.unchanged := by
    intro p hp
    cases hlast : lastFileNamed p ms with
    | none => exact absurd hp ((lastFileNamed_eq_none_iff p ms).mp hlast)
    | some m =>
      have hget2 := extract_ok_get root ms v2 cur1 (goodWrites root ms) cur2 cs2 h2 p
      rw [hlast] at hget2
      refine ⟨classifyMeta cur1 v2 m, hget2, ?_⟩
      obtain ⟨hmem, hf, hname⟩ := lastFileNamed_spec p ms m hlast
      have hg : dictGet cur1 m.name = some (classifyMeta prev v1 m) := by
        rw [hname]
        exact hlastfact p m hlast
      rw [classifyMeta_status_of_prev cur1 v2 m _ hg,
        if_pos (classifyMeta_sha prev v1 m)]
  have hstay : ∀ p, p ∈ cs2.removed_files →
      ∃ r2, dictGet cur2 p = some r2 ∧ r2.status = FileStatus.removed := by
    intro p hp
    rw [hb4, List.mem_dedup, List.mem_filter] at hp
    obtain ⟨hk, hcond⟩ := hp
    have hlast : lastFileNamed p ms = none := by
      cases hl : lastFileNamed p ms with
      | none => rfl
      | some x => rw [hl] at hcond; simp at hcond
    have hmem : dictMem cur1 p = true := (dictMem_iff_mem_keys cur1 p).mpr hk
    rw [dictMem] at hmem
    obtain ⟨r, hr⟩ := Option.isSome_iff_exists.mp hmem
    have hchar2 := extract_ok_get root ms v2 cur1 (goodWrites root ms) cur2 cs2 h2 p
    rw [hlast, hr] at hchar2
    exact ⟨removedMeta v2 r, hchar2, rfl⟩
  have hallunch : (∀ kv ∈ cur1, kv.2.status ≠ FileStatus.removed) →
      ∀ p r, dictGet cur2 p = some r → r.status = FileStatus.unchanged := by
    intro hnorem p r hget
    have hchar2 := extract_ok_get root ms v2 cur1 (goodWrites root ms) cur2 cs2 h2 p
    rw [hget] at hchar2
    cases hlast : lastFileNamed p ms with
    | some m =>
      rw [hlast] at hchar2
      injection hchar2 with hr
      rw [hr]
      obtain ⟨hmem, hf, hname⟩ := lastFileNamed_spec p ms m hlast
      have hg : dictGet cur1 m.name = some (classifyMeta prev v1 m) := by
        rw [hname]
        exact hlastfact p m hlast
      rw [classifyMeta_status_of_prev cur1 v2 m _ hg,
        if_pos (classifyMeta_sha prev v1 m)]
    | none =>
      rw [hlast] at hchar2
      cases hg : dictGet cur1 p with
      | none => rw [hg] at hchar2; cases hchar2
      | some pm =>
        exfalso
        have hchar1 := extract_ok_get root ms v1 prev w1 cur1 cs1 h1 p
        rw [hlast, hg] at hchar1
        cases hg0 : dictGet prev p with
        | none => rw [hg0] at hchar1; cases hchar1
        | some pm0 =>
          rw [hg0] at hchar1
          injection hchar1 with hpm
          have hne := hnorem (p, pm) (dictGet_mem cur1 p pm hg)
          rw [hpm] at hne
          exact hne rfl
  refine ⟨goodWrites root ms, cur2, cs2, h2, hnew, hmodN, hunchnames, hremiff, hstay,
    fun hnorem => ⟨?_, hallunch hnorem⟩⟩
  rw [List.eq_nil_iff_forall_not_mem]
  intro p hp
  obtain ⟨r, hr, hst⟩ := (hremiff p).mp hp
  exact hnorem (p, r) (dictGet_mem cur1 p r hr) hst

/-- Witness for C4 at a concrete archive: re-running on the prior output of
a clean first run yields the fully-idempotent outcome. -/
theorem c4_idempotent_rerun_witness :
    ∃ w2 cur2 cs2,
      extract_tar_bz2_incremental [] [{ name := "a", isFile := true, content := ['x'] }]
        "v"
        [("a", { path := "a", size := 1, sha256 := "x", last_changed := some "v",
                 status := FileStatus.added })] = (w2, Except.ok (cur2, cs2)) ∧
      cs2.new_files = [] ∧
      ((fileNamesOf [{ name := "a", isFile := true, content := ['x'] }]).Nodup →
        cs2.modified_files = []) ∧
      (∀ p, p ∈ fileNamesOf [{ name := "a", isFile := true, content := ['x'] }] →
        ∃ r, dictGet cur2 p = some r ∧ r.status = FileStatus.unchanged) ∧
      (∀ p, p ∈ cs2.removed_files ↔
        ∃ r, dictGet ([("a", { path := "a", size := 1, sha256 := "x",
                               last_changed := some "v",
                               status := FileStatus.added })] :
            List (String × FileMetadata)) p = some r ∧
          r.status = FileStatus.removed) ∧
      (∀ p, p ∈ cs2.removed_files →
        ∃ r2, dictGet cur2 p = some r2 ∧ r2.status = FileStatus.removed) ∧
      ((∀ kv ∈ ([("a", { path := "a", size := 1, sha256 := "x", last_changed := some "v",
                         status := FileStatus.added })] :
            List (String × FileMetadata)),
          kv.2.status ≠ FileStatus.removed) →
        cs2.removed_files = [] ∧
        ∀ p r, dictGet cur2 p = some r → r.status = FileStatus.unchanged) :=
  c4_idempotent_rerun [] [{ name := "a", isFile := true, content := ['x'] }] "v" "v" []
    [(["a"], ['x'])]
    [("a", { path := "a", size := 1, sha256 := "x", last_changed := some "v",
             status := FileStatus.added })]
    ⟨["a"], [], [], []⟩ (by rfl)

end Lovlig
